import Mathlib

/-! KHASH: a shallow embedding of `khash.h` / `khash_mgmnt.c`.

Machine integers are natural numbers reduced modulo `2 ^ 32` or `2 ^ 64` wherever the C
code truncates.  Pointers to values (`void *`) are natural numbers, `NULL` being `0`.
Table handles are the tables themselves, so a handle is never `NULL`, and an output
pointer such as `retval` is taken to be given.  Operations whose C execution is undefined
(an out-of-range shift count, a read outside an array) return `none`; an increment of
`statistical_mode[]` outside the array, whose target lies outside the modelled state, is
recorded and the computation goes on.
-/

namespace Khash

/-! ## Key encoder (`khash.h`) -/

/-- The constant `KHASH_GOLDEN_RATIO_64`. -/
def KHASH_GOLDEN_RATIO_64 : Nat := 0x61C8864680B583EB

/-- The function `khash_64_generic` on a 64-bit target (`BITS_PER_LONG == 64`):
a `u64` multiplication, hence reduced modulo `2 ^ 64`. -/
def khash_64_generic (val : Nat) : Nat :=
  (val * KHASH_GOLDEN_RATIO_64) % 2 ^ 64

/-- The macro `khash_64`, which names `khash_64_generic`. -/
def khash_64 (val : Nat) : Nat := khash_64_generic val

/-- The type `khash_key_t`: the three 64-bit words `__key._64[0..2]` of the union and
the folded scalar `key`. -/
structure khash_key_t where
  w0 : Nat
  w1 : Nat
  w2 : Nat
  key : Nat
deriving DecidableEq, Repr

/-- The 192-bit storage `__key` of a key, as its three 64-bit words. -/
def khash_key_t.words (k : khash_key_t) : List Nat := [k.w0, k.w1, k.w2]

/-- The effect of `memset(key, 0, sizeof(*key))`. -/
def key_zero : khash_key_t := ⟨0, 0, 0, 0⟩

/-- Read of `key->__key._64[i]`; the array has `_64WORDS_NUM = 3` words. -/
def key_word (k : khash_key_t) (i : Nat) : Nat :=
  match i with
  | 0 => k.w0
  | 1 => k.w1
  | 2 => k.w2
  | _ => 0

/-- Write of `key->__key._64[i] = v` for a `u64` value. -/
def key_set_word (k : khash_key_t) (i : Nat) (v : Nat) : khash_key_t :=
  match i with
  | 0 => { k with w0 := v % 2 ^ 64 }
  | 1 => { k with w1 := v % 2 ^ 64 }
  | 2 => { k with w2 := v % 2 ^ 64 }
  | _ => k

/-- The effect of `memcpy(key->__key._64, src, n)` for a source array of `u64` words and a
byte count `n` that is a multiple of 8 (the source uses 8 and 16): the first `n / 8`
words of the storage are overwritten by the first `n / 8` words of `src`. -/
def key_memcpy (k : khash_key_t) (src : List Nat) (n : Nat) : khash_key_t :=
  (List.range (n / 8)).foldl (fun acc i => key_set_word acc i (src.getD i 0)) k

/-- The function `__khash_key_hash`: `for (i = 0; i < lkey; i++) key->key ^= khash_64(_64[i])`. -/
def __khash_key_hash (k : khash_key_t) (lkey : Nat) : khash_key_t :=
  (List.range lkey).foldl (fun acc i => { acc with key := acc.key ^^^ khash_64 (key_word acc i) }) k

/-- The function `khash_hash_u32`; the argument is a `u32`. -/
def khash_hash_u32 (_u32 : Nat) : khash_key_t :=
  __khash_key_hash (key_set_word key_zero 0 (_u32 % 2 ^ 32)) 1

/-- The function `khash_hash_u64`; the argument is a `u64`, copied with `memcpy(.., 8)`. -/
def khash_hash_u64 (_u64 : Nat) : khash_key_t :=
  __khash_key_hash (key_memcpy key_zero [_u64 % 2 ^ 64] 8) 1

/-- The function `khash_hash_u128`; the argument `u64 _u64[2]` is given by its two words,
copied with `memcpy(.., 16)`. -/
def khash_hash_u128 (lo hi : Nat) : khash_key_t :=
  __khash_key_hash (key_memcpy key_zero [lo % 2 ^ 64, hi % 2 ^ 64] 16) 2

/-- The function `khash_hash_u160`; the array argument is given by its two words and is
copied with `memcpy(.., 8)`, then `_64[2] = _u32`. -/
def khash_hash_u160 (lo hi : Nat) (_u32 : Nat) : khash_key_t :=
  __khash_key_hash (key_set_word (key_memcpy key_zero [lo % 2 ^ 64, hi % 2 ^ 64] 8) 2 (_u32 % 2 ^ 32)) 3

/-- Modelled from the spec: `khash_key_match` is called by `KHASH_BUCKET_LOOKUP` but its
definition is not among the sources; the spec defines key equality "over the full 192-bit
storage, never the folded scalar alone". -/
def khash_key_match (a b : khash_key_t) : Bool :=
  decide (a.words = b.words)

/-! ## Bucket store and table engine (`khash_internal.h`, `khash_mgmnt.c`) -/

/-- The type `khash_item_t`, whose declaration is not among the sources: the fields used
by `khash_item_new` are the key `hash` and the opaque `value` (the list and RCU links
are the position of the item in its chain). -/
structure khash_item_t where
  hash : khash_key_t
  value : Nat
deriving DecidableEq, Repr

/-- The type `struct khash_t`: `ht_count` and `ht` are the two arrays, `ht[i]` being the
chain of bucket `i` from its head. -/
structure khash_t where
  count : Nat
  bck_num : Nat
  bits_num : Nat
  ht_count : List Nat
  ht : List (List khash_item_t)
deriving DecidableEq, Repr

/-- Modelled from the spec: `hash_long` comes from the kernel header `linux/hash.h`, which
is not among the sources; the spec gives `index_of(key)` as
`(folded_scalar_mix) >> (64 - bits)`, the mix being the `u64` product with the 64-bit
golden ratio.  The shift is a C shift of a `u64`: its count `64 - bits` (unsigned) must
be below 64, so the result is undefined for `bits = 0` and for `bits > 64`.  The result
is returned as a `u32`. -/
def hash_long (val : Nat) (bits : Nat) : Option Nat :=
  if 1 ≤ bits ∧ bits ≤ 64 then
    some ((((val * KHASH_GOLDEN_RATIO_64) % 2 ^ 64) >>> (64 - bits)) % 2 ^ 32)
  else none

/-- The macro `khash_min(val, bits)`: every use passes the `u64` field `key`, so
`sizeof(val) <= 4` is false and the macro is `hash_long(val, bits)`. -/
def khash_min (val : Nat) (bits : Nat) : Option Nat := hash_long val bits

/-- The function `khash_hash_idx_get`. -/
def khash_hash_idx_get (kh : khash_t) (hash : khash_key_t) : Option Nat :=
  khash_min hash.key kh.bits_num

/-- The loop of `khash_init` that rounds the bucket number:
`while (((1 << bits_num) < bck_size) && bits_num < 24) bits_num++`. -/
def khash_init_bits (bck_size : Nat) (bits_num : Nat) : Nat :=
  if (1 <<< bits_num) < bck_size ∧ bits_num < 24 then
    khash_init_bits bck_size (bits_num + 1)
  else bits_num
termination_by 24 - bits_num
decreasing_by omega

/-- The function `khash_init`; `alloc_ok` tells whether the `vzalloc` calls succeed
(otherwise the function returns `NULL`). -/
def khash_init (alloc_ok : Bool) (bck_size : Nat) : Option khash_t :=
  if alloc_ok then
    let bits_num := khash_init_bits bck_size 0
    let bck_num := (1 <<< bits_num) % 2 ^ 32
    some { count := 0, bck_num := bck_num, bits_num := bits_num,
           ht_count := List.replicate bck_num 0, ht := List.replicate bck_num [] }
  else none

/-- The function `__khash_lookup2` (macro `KHASH_BUCKET_LOOKUP`): the first item of the
chain `ht[khash_min(hash->key, bits_num)]` whose key matches, or `NULL`.  The outer
`Option` is `none` when the bucket index is undefined or outside `ht`. -/
def __khash_lookup2 (kh : khash_t) (hash : khash_key_t) : Option (Option khash_item_t) :=
  match khash_min hash.key kh.bits_num with
  | none => none
  | some i =>
    match kh.ht[i]? with
    | none => none
    | some chain => some (chain.find? (fun item => khash_key_match item.hash hash))

/-- The function `khash_lookup`: the return code and the value stored in `*retval`. -/
def khash_lookup (khash : khash_t) (hash : khash_key_t) : Option (Int × Nat) :=
  match __khash_lookup2 khash hash with
  | none => none
  | some none => some (-1, 0)
  | some (some item) => some (0, item.value)

/-- The function `khash_lookup2`, which differs from `khash_lookup` only in taking the key
by pointer. -/
def khash_lookup2 (khash : khash_t) (hash : khash_key_t) : Option (Int × Nat) :=
  match __khash_lookup2 khash hash with
  | none => none
  | some none => some (-1, 0)
  | some (some item) => some (0, item.value)

/-- Decrement of a `uint32_t`, which wraps around at zero. -/
def u32_dec (x : Nat) : Nat :=
  if x % 2 ^ 32 = 0 then 2 ^ 32 - 1 else x % 2 ^ 32 - 1

/-- Increment of a `uint32_t`. -/
def u32_inc (x : Nat) : Nat := (x + 1) % 2 ^ 32

/-- The function `__khash_rementry` applied to an item that is linked in the chain of
bucket `bkt`: the counter of the bucket computed from the item's own key and the total
count are decremented, and the item is unlinked from its chain. -/
def __khash_rementry (khash : khash_t) (bkt : Nat) (item : khash_item_t) : Option khash_t :=
  match khash_hash_idx_get khash item.hash with
  | none => none
  | some j =>
    match khash.ht_count[j]?, khash.ht[bkt]? with
    | some c, some chain =>
      some { khash with
        ht_count := khash.ht_count.set j (u32_dec c),
        count := u32_dec khash.count,
        ht := khash.ht.set bkt (chain.erase item) }
    | _, _ => none

/-- The inner loop of `khash_flush` over the chain of bucket `bkt`: the traversal follows
the `next` links, which `hlist_del_init_rcu` leaves in place, so every item of the
chain is passed to `__khash_rementry` in chain order. -/
def khash_flush_chain (bkt : Nat) : List khash_item_t → khash_t → Option khash_t
  | [], kh => some kh
  | item :: rest, kh =>
    match __khash_rementry kh bkt item with
    | none => none
    | some kh1 => khash_flush_chain bkt rest kh1

/-- The outer loop of `khash_flush` (macro `khash_for_each_rcu`) with `n` buckets left,
the next one being `idx`. -/
def khash_flush_loop : Nat → Nat → khash_t → Option khash_t
  | 0, _, kh => some kh
  | n + 1, idx, kh =>
    match kh.ht[idx]? with
    | none => none
    | some chain =>
      match khash_flush_chain idx chain kh with
      | none => none
      | some kh1 => khash_flush_loop n (idx + 1) kh1

/-- The function `khash_flush`. -/
def khash_flush (kh : khash_t) : Option khash_t :=
  khash_flush_loop kh.bck_num 0 kh

/-- The function `khash_rementry`: the return code, the value stored in `*retval` and the
table afterwards. -/
def khash_rementry (khash : khash_t) (hash : khash_key_t) : Option (Int × Nat × khash_t) :=
  match __khash_lookup2 khash hash, khash_min hash.key khash.bits_num with
  | some none, _ => some (-1, 0, khash)
  | some (some item), some bkt =>
    match __khash_rementry khash bkt item with
    | none => none
    | some kh1 => some (0, item.value, kh1)
  | _, _ => none

/-- The function `khash_add_item`: the return code and the table afterwards. -/
def khash_add_item (khash : khash_t) (item : khash_item_t) : Option (Int × khash_t) :=
  match __khash_lookup2 khash item.hash with
  | none => none
  | some (some _) => some (-1, khash)
  | some none =>
    match khash_min item.hash.key khash.bits_num, khash_hash_idx_get khash item.hash with
    | some i, some j =>
      match khash.ht[i]?, khash.ht_count[j]? with
      | some chain, some c =>
        some (0, { khash with
          ht := khash.ht.set i (item :: chain),
          ht_count := khash.ht_count.set j (u32_inc c),
          count := u32_inc khash.count })
      | _, _ => none
    | _, _ => none

/-- The function `khash_addentry`; `alloc_ok` tells whether `khash_item_new` (a `kzalloc`)
succeeds. -/
def khash_addentry (khash : khash_t) (hash : khash_key_t) (value : Nat) (alloc_ok : Bool) :
    Option (Int × khash_t) :=
  if alloc_ok then
    match khash_add_item khash ⟨hash, value⟩ with
    | none => none
    | some (r, kh1) => if r < 0 then some (-1, kh1) else some (0, kh1)
  else some (-1, khash)

/-- The function `khash_size`: the `uint32_t` count returned as an `int`. -/
def khash_size (khash : khash_t) : Int :=
  if khash.count % 2 ^ 32 < 2 ^ 31 then ((khash.count % 2 ^ 32 : Nat) : Int)
  else ((khash.count % 2 ^ 32 : Nat) : Int) - 2 ^ 32

/-- The inner loop of `KHASH_FOREACH` over one chain: whether the visitor asked to stop
(the loop was left by `break`), the user data afterwards and the items the visitor was
called on, in call order. -/
def khash_foreach_chain {σ : Type} (func : khash_key_t → Nat → σ → Int × σ) :
    List khash_item_t → σ → Bool × σ × List khash_item_t
  | [], data => (false, data, [])
  | item :: rest, data =>
    let r := func item.hash item.value data
    if r.1 ≠ 0 then (true, r.2, [item])
    else
      let s := khash_foreach_chain func rest r.2
      (s.1, s.2.1, item :: s.2.2)

/-- The outer loop of `KHASH_FOREACH` (macro `khash_for_each_rcu`) with `n` buckets left,
the next one being `idx`; the loop ends when an inner loop was left by `break`. -/
def khash_foreach_loop {σ : Type} (func : khash_key_t → Nat → σ → Int × σ) (kh : khash_t) :
    Nat → Nat → σ → Option (σ × List khash_item_t)
  | 0, _, data => some (data, [])
  | n + 1, idx, data =>
    match kh.ht[idx]? with
    | none => none
    | some chain =>
      let s := khash_foreach_chain func chain data
      if s.1 then some (s.2.1, s.2.2)
      else
        match khash_foreach_loop func kh n (idx + 1) s.2.1 with
        | none => none
        | some (d, calls) => some (d, s.2.2 ++ calls)

/-- The function `khash_foreach` for a visitor `func` that may update the user data: the
user data afterwards and the items the visitor was called on, in call order. -/
def khash_foreach {σ : Type} (khash : khash_t) (func : khash_key_t → Nat → σ → Int × σ)
    (data : σ) : Option (σ × List khash_item_t) :=
  khash_foreach_loop func khash khash.bck_num 0 data

/-! ## Stats engine (`khash_mgmnt.c`, `khash.h`) -/

/-- The loop of `sqrt_u64`, a bisection between `min` and `max`; `sq` is a `uint64_t`
product. -/
def sqrt_u64_loop (a : Nat) (min max : Nat) : Nat :=
  if max ≤ 1 + min then min
  else if ((min + (max - min) / 2) * (min + (max - min) / 2)) % 2 ^ 64 = a then
    min + (max - min) / 2
  else if ((min + (max - min) / 2) * (min + (max - min) / 2)) % 2 ^ 64 > a then
    sqrt_u64_loop a min (min + (max - min) / 2)
  else sqrt_u64_loop a (min + (max - min) / 2) max
termination_by max - min
decreasing_by
  all_goals omega

/-- The function `sqrt_u64`: the bisection starts from `min = 0` and `max = 1 << 32`. -/
def sqrt_u64 (a : Nat) : Nat := sqrt_u64_loop a 0 (2 ^ 32)

/-- The constant `PRECISION`. -/
def PRECISION : Nat := 1000

/-- The constant `MAX_STATISTICAL_MODE`. -/
def MAX_STATISTICAL_MODE : Nat := 25

/-- The type `khash_stats_t`. -/
structure khash_stats_t where
  count : Nat
  mean : Nat
  std_dev : Nat
  min : Nat
  min_counter : Nat
  max : Nat
  max_counter : Nat
  stat_mode : Nat
  stat_mode_counter : Nat
  bucket_number : Nat
  x_axis : List Nat
  statistical_mode : List Nat
deriving DecidableEq, Repr

/-- The effect of `memset(stats, 0, sizeof(khash_stats_t))`. -/
def stats_zero : khash_stats_t :=
  { count := 0, mean := 0, std_dev := 0, min := 0, min_counter := 0, max := 0,
    max_counter := 0, stat_mode := 0, stat_mode_counter := 0, bucket_number := 0,
    x_axis := List.replicate MAX_STATISTICAL_MODE 0,
    statistical_mode := List.replicate MAX_STATISTICAL_MODE 0 }

/-- The state of the first loop of `khash_stats_get`: the statistics, the local `variance`
and the indices at which `statistical_mode[]` was accessed outside its
`MAX_STATISTICAL_MODE` entries. -/
structure stats_acc where
  stats : khash_stats_t
  variance : Nat
  oob : List Nat
deriving DecidableEq, Repr

/-- The minimum part of the body of the first loop of `khash_stats_get`. -/
def stats_min_step (s : khash_stats_t) (tmp : Nat) : khash_stats_t :=
  if tmp < s.min then { s with min := tmp, min_counter := 1 }
  else if tmp = s.min then { s with min_counter := (s.min_counter + 1) % 2 ^ 64 }
  else s

/-- The maximum part of the body of the first loop of `khash_stats_get`. -/
def stats_max_step (s : khash_stats_t) (tmp : Nat) : khash_stats_t :=
  if tmp > s.max then { s with max := tmp, max_counter := 1 }
  else if tmp = s.max then { s with max_counter := (s.max_counter + 1) % 2 ^ 64 }
  else s

/-- The statement `stats->statistical_mode[tmp]++` on the array of
`MAX_STATISTICAL_MODE` `uint32_t` entries; an index outside the array is recorded in
`oob`. -/
def stats_mode_step (acc : stats_acc) (tmp : Nat) : stats_acc :=
  if tmp < MAX_STATISTICAL_MODE then
    { acc with stats := { acc.stats with
        statistical_mode :=
          acc.stats.statistical_mode.set tmp
            ((acc.stats.statistical_mode.getD tmp 0 + 1) % 2 ^ 32) } }
  else { acc with oob := acc.oob ++ [tmp] }

/-- The body of the first loop of `khash_stats_get` for the counter value `tmp`. -/
def stats_step (acc : stats_acc) (tmp : Nat) : stats_acc :=
  let a1 := stats_mode_step
    { acc with stats := stats_max_step (stats_min_step acc.stats tmp) tmp } tmp
  let scaled := (tmp * PRECISION) % 2 ^ 64
  { a1 with
    stats := { a1.stats with mean := (a1.stats.mean + scaled) % 2 ^ 64 },
    variance := (a1.variance + (scaled * scaled) % 2 ^ 64) % 2 ^ 64 }

/-- The first loop of `khash_stats_get` with `n` buckets left, the next one being `i`; a
read outside `ht_count` has no defined result. -/
def stats_loop (ht_count : List Nat) : Nat → Nat → stats_acc → Option stats_acc
  | 0, _, acc => some acc
  | n + 1, i, acc =>
    match ht_count[i]? with
    | none => none
    | some tmp => stats_loop ht_count n (i + 1) (stats_step acc tmp)

/-- The second loop of `khash_stats_get`, over `i = 0, ..., tmp - 1`. -/
def stats_mode_loop (s : khash_stats_t) (tmp : Nat) : khash_stats_t :=
  (List.range tmp).foldl (fun s i =>
    if s.statistical_mode.getD i 0 > s.stat_mode_counter then
      { s with stat_mode := i, stat_mode_counter := s.statistical_mode.getD i 0 }
    else s) s

/-- Subtraction of two `uint64_t`. -/
def u64_sub (a b : Nat) : Nat :=
  if b % 2 ^ 64 ≤ a % 2 ^ 64 then a % 2 ^ 64 - b % 2 ^ 64
  else 2 ^ 64 - (b % 2 ^ 64 - a % 2 ^ 64)

/-- The state in which `khash_stats_get` enters its first loop: `*stats` zeroed, then
`stats->min = 1000000` and `stats->count = khash->count`. -/
def stats_start (count : Nat) : stats_acc :=
  ⟨{ stats_zero with min := 1000000, count := count % 2 ^ 32 }, 0, []⟩

/-- The part of `khash_stats_get` after its first loop: mean and standard deviation, the
mode loop, the axis labels and the bucket number. -/
def stats_finish (bck_num : Nat) (acc : stats_acc) : khash_stats_t :=
  let s := acc.stats
  let mean := s.mean / bck_num
  let variance := u64_sub (acc.variance / bck_num) ((mean * mean) % 2 ^ 64)
  let s1 := { s with mean := mean / PRECISION, std_dev := sqrt_u64 variance / PRECISION }
  let tmp := if MAX_STATISTICAL_MODE < s1.max then MAX_STATISTICAL_MODE else s1.max
  let s2 := stats_mode_loop s1 tmp
  { s2 with x_axis := List.range MAX_STATISTICAL_MODE, bucket_number := bck_num % 2 ^ 32 }

/-- The function `khash_stats_get`: the return code, the statistics stored in `*stats` and
the indices at which `statistical_mode[]` was accessed outside its bounds. -/
def khash_stats_get (khash : khash_t) (stats : khash_stats_t) :
    Option (Int × khash_stats_t × List Nat) :=
  if khash.bck_num = 0 then some (-1, stats, [])
  else
    match stats_loop khash.ht_count khash.bck_num 0 (stats_start khash.count) with
    | none => none
    | some acc => some (0, stats_finish khash.bck_num acc, acc.oob)

/-! ## Auxiliary definitions for the statements -/

/-- The number of entries linked in the chains of a table. -/
def live (t : khash_t) : Nat := (t.ht.map List.length).sum

/-- The well-formedness invariant of a table. -/
structure Inv (t : khash_t) : Prop where
  bits_le : t.bits_num ≤ 24
  bck : t.bck_num = 2 ^ t.bits_num
  len_ht : t.ht.length = t.bck_num
  len_cnt : t.ht_count.length = t.bck_num
  home : ∀ (b : Nat) (chain : List khash_item_t), t.ht[b]? = some chain → ∀ it ∈ chain, khash_hash_idx_get t it.hash = some b
  distinct : ∀ chain ∈ t.ht, chain.Pairwise (fun a b => a.hash.words ≠ b.hash.words)
  cnt : ∀ (b : Nat) (chain : List khash_item_t), t.ht[b]? = some chain → t.ht_count[b]? = some (chain.length % 2 ^ 32)
  total : t.count = live t % 2 ^ 32

/-- The table after `item` was linked at the head of chain `i`. -/
def linked (t : khash_t) (i : Nat) (item : khash_item_t) (chain : List khash_item_t) : khash_t :=
  { t with ht := t.ht.set i (item :: chain),
           ht_count := t.ht_count.set i (u32_inc (chain.length % 2 ^ 32)),
           count := u32_inc t.count }

/-- The table after `item` was unlinked from chain `b`. -/
def unlinked (t : khash_t) (b : Nat) (item : khash_item_t) (chain : List khash_item_t) :
    khash_t :=
  { t with ht_count := t.ht_count.set b (u32_dec (chain.length % 2 ^ 32)),
           count := u32_dec t.count,
           ht := t.ht.set b (chain.erase item) }

/-- The tables that `khash_init`, `khash_addentry`, `khash_rementry` and `khash_flush` can
produce, the keys passed to `khash_addentry` being taken among those satisfying `P`. -/
inductive Reachable (P : khash_key_t → Prop) : khash_t → Prop
  | init (c : Nat) (t : khash_t) : khash_init true c = some t → Reachable P t
  | add (t t1 : khash_t) (k : khash_key_t) (v : Nat) (a : Bool) (r : Int) :
      Reachable P t → P k → khash_addentry t k v a = some (r, t1) → Reachable P t1
  | rem (t t1 : khash_t) (k : khash_key_t) (r : Int) (v : Nat) :
      Reachable P t → khash_rementry t k = some (r, v, t1) → Reachable P t1
  | flush (t t1 : khash_t) : Reachable P t → khash_flush t = some t1 → Reachable P t1

/-- The keys that the four encoders of `khash.h` produce. -/
def EncoderKey (k : khash_key_t) : Prop :=
  (∃ x, k = khash_hash_u32 x) ∨ (∃ x, k = khash_hash_u64 x) ∨
  (∃ lo hi, k = khash_hash_u128 lo hi) ∨ (∃ lo hi x, k = khash_hash_u160 lo hi x)

/-- The fold of all three stored words: the XOR of `khash_64` over `__key._64[0..2]`. -/
def key_fold (k : khash_key_t) : Nat :=
  khash_64 k.w0 ^^^ khash_64 k.w1 ^^^ khash_64 k.w2

/-- The calls `khash_addentry(t, khash_hash_u64(i), 0)` for `i = 0, ..., n - 1` in turn,
every allocation succeeding. -/
def khash_fill : Nat → khash_t → Option khash_t
  | 0, t => some t
  | n + 1, t =>
    match khash_fill n t with
    | none => none
    | some t1 =>
      match khash_addentry t1 (khash_hash_u64 n) 0 true with
      | none => none
      | some r => some r.2

/-- A two-bucket table that holds the key `khash_hash_u32 1` with the value 5: the state
after `khash_init(2)` and one `khash_addentry`. -/
def table_one_entry : khash_t :=
  ⟨1, 2, 1, [0, 1], [[], [⟨khash_hash_u32 1, 5⟩]]⟩

/-- The traversal that the spec describes for `foreach`: the visitor is called on the
entries of a list in order, the user data being threaded through the calls, until a call
returns a non-zero value; the result is the user data afterwards and the entries the
visitor was called on. -/
def visit_until_stop {σ : Type} (func : khash_key_t → Nat → σ → Int × σ) :
    List khash_item_t → σ → σ × List khash_item_t
  | [], data => (data, [])
  | item :: rest, data =>
    let r := func item.hash item.value data
    if r.1 ≠ 0 then (r.2, [item])
    else
      let s := visit_until_stop func rest r.2
      (s.1, item :: s.2)

/-- The loop of `sqrt_u64` together with a log of the values that `sqt` takes, one for
each iteration that computes `sq = sqt * sqt`: the first component is the value returned,
the second the log in the order of the iterations. -/
def sqrt_u64_run (a : Nat) (min max : Nat) : Nat × List Nat :=
  if max ≤ 1 + min then (min, [])
  else if ((min + (max - min) / 2) * (min + (max - min) / 2)) % 2 ^ 64 = a then
    (min + (max - min) / 2, [min + (max - min) / 2])
  else if ((min + (max - min) / 2) * (min + (max - min) / 2)) % 2 ^ 64 > a then
    ((sqrt_u64_run a min (min + (max - min) / 2)).1,
      (min + (max - min) / 2) :: (sqrt_u64_run a min (min + (max - min) / 2)).2)
  else
    ((sqrt_u64_run a (min + (max - min) / 2) max).1,
      (min + (max - min) / 2) :: (sqrt_u64_run a (min + (max - min) / 2) max).2)
termination_by max - min
decreasing_by
  all_goals omega

/-! ## Lemmas -/

theorem khash_init_bits_spec (c b : Nat) (hb : b ≤ 24) (hle : b ≤ Nat.clog 2 (max 1 c)) :
    khash_init_bits c b = min 24 (Nat.clog 2 (max 1 c)) := by
  induction b using khash_init_bits.induct c with
  | case1 b h ih =>
    rw [khash_init_bits, if_pos h]
    apply ih (by omega)
    have h1 : 2 ^ b < max 1 c := by
      have := h.1
      rw [Nat.one_shiftLeft] at this
      exact lt_of_lt_of_le this (le_max_right _ _)
    exact (Nat.pow_lt_iff_lt_clog (by norm_num)).1 h1
  | case2 b h =>
    rw [khash_init_bits, if_neg h]
    rw [not_and_or] at h
    rcases h with h | h
    · have h1 : max 1 c ≤ 2 ^ b := by
        rw [Nat.one_shiftLeft] at h
        have : 1 ≤ 2 ^ b := Nat.one_le_two_pow
        exact max_le this (by omega)
      have := (Nat.le_pow_iff_clog_le (by norm_num)).1 h1
      omega
    · omega

theorem sum_length_set {α : Type} (l : List (List α)) (i : Nat) (x y : List α)
    (h : l[i]? = some y) :
    ((l.set i x).map List.length).sum + y.length = (l.map List.length).sum + x.length := by
  induction l generalizing i with
  | nil => simp at h
  | cons a l ih =>
    cases i with
    | zero =>
      simp at h
      subst h
      simp
      omega
    | succ i =>
      simp at h
      have := ih i h
      simp only [List.set_cons_succ, List.map_cons, List.sum_cons]
      omega

theorem hash_long_lt (v bits : Nat) (h1 : 1 ≤ bits) (h2 : bits ≤ 24) :
    ∃ i, hash_long v bits = some i ∧ i < 2 ^ bits := by
  refine ⟨_, by rw [hash_long, if_pos ⟨h1, by omega⟩], ?_⟩
  apply lt_of_le_of_lt (Nat.mod_le _ _)
  rw [Nat.shiftRight_eq_div_pow, Nat.div_lt_iff_lt_mul (by positivity), ← pow_add]
  have : bits + (64 - bits) = 64 := by omega
  rw [this]
  exact Nat.mod_lt _ (by norm_num)

theorem hash_long_zero (v : Nat) : hash_long v 0 = none := by
  simp [hash_long]

theorem khash_min_some_bits {v bits i : Nat} (h : khash_min v bits = some i) : 1 ≤ bits := by
  unfold khash_min hash_long at h
  split at h
  · omega
  · simp at h

theorem khash_min_lt {v bits i : Nat} (h : khash_min v bits = some i) (h2 : bits ≤ 24) :
    i < 2 ^ bits := by
  obtain ⟨j, hj, hlt⟩ := hash_long_lt v bits (khash_min_some_bits h) h2
  unfold khash_min at h
  rw [hj] at h
  cases h
  exact hlt

theorem Inv.bucket {t : khash_t} (hinv : Inv t) {v i : Nat}
    (h : khash_min v t.bits_num = some i) :
    ∃ chain, t.ht[i]? = some chain ∧ t.ht_count[i]? = some (chain.length % 2 ^ 32) := by
  have hlt : i < t.ht.length := by
    rw [hinv.len_ht, hinv.bck]
    exact khash_min_lt h hinv.bits_le
  refine ⟨t.ht[i], ?_, ?_⟩
  · exact List.getElem?_eq_getElem hlt
  · exact hinv.cnt i _ (List.getElem?_eq_getElem hlt)

theorem lookup2_eq {t : khash_t} {k : khash_key_t} {i : Nat} {chain : List khash_item_t}
    (h : khash_min k.key t.bits_num = some i) (hc : t.ht[i]? = some chain) :
    __khash_lookup2 t k = some (chain.find? (fun item => khash_key_match item.hash k)) := by
  simp [__khash_lookup2, h, hc]

theorem lookup2_undefined {t : khash_t} (k : khash_key_t) (h : t.bits_num = 0) :
    __khash_lookup2 t k = none := by
  simp [__khash_lookup2, khash_min, h, hash_long_zero]

theorem Inv.linked {t : khash_t} (hinv : Inv t) {item : khash_item_t} {i : Nat}
    {chain : List khash_item_t} (h : khash_min item.hash.key t.bits_num = some i)
    (hc : t.ht[i]? = some chain)
    (hnew : chain.find? (fun x => khash_key_match x.hash item.hash) = none) :
    Inv (linked t i item chain) := by
  have hlt : i < t.ht.length := by
    rw [hinv.len_ht, hinv.bck]; exact khash_min_lt h hinv.bits_le
  have hlt2 : i < t.ht_count.length := by rw [hinv.len_cnt, ← hinv.len_ht]; exact hlt
  refine ⟨hinv.bits_le, hinv.bck, ?_, ?_, ?_, ?_, ?_, ?_⟩
  · simp [Khash.linked, hinv.len_ht]
  · simp [Khash.linked, hinv.len_cnt]
  · intro b ch hb it hit
    simp only [Khash.linked] at hb
    by_cases hbi : i = b
    · subst hbi
      rw [List.getElem?_set_self hlt] at hb
      cases hb
      rcases List.mem_cons.1 hit with rfl | hit
      · exact h
      · exact hinv.home i chain hc it hit
    · rw [List.getElem?_set_ne hbi] at hb
      exact hinv.home b ch hb it hit
  · intro ch hch
    simp only [Khash.linked] at hch
    rcases List.mem_or_eq_of_mem_set hch with hch | rfl
    · exact hinv.distinct ch hch
    · rw [List.pairwise_cons]
      refine ⟨?_, hinv.distinct chain (List.getElem?_mem hc)⟩
      intro x hx
      rw [List.find?_eq_none] at hnew
      have := hnew x hx
      simp only [khash_key_match, decide_eq_true_eq] at this
      exact fun e => this e.symm
  · intro b ch hb
    simp only [Khash.linked] at hb ⊢
    by_cases hbi : i = b
    · subst hbi
      rw [List.getElem?_set_self hlt] at hb
      cases hb
      rw [List.getElem?_set_self hlt2]
      simp only [u32_inc, List.length_cons, Option.some.injEq]
      omega
    · rw [List.getElem?_set_ne hbi] at hb
      rw [List.getElem?_set_ne hbi]
      exact hinv.cnt b ch hb
  · have hs := sum_length_set t.ht i (item :: chain) chain hc
    have ht := hinv.total
    simp only [Khash.linked, live, u32_inc, List.length_cons] at hs ht ⊢
    omega

theorem add_item_ok {t : khash_t} (hinv : Inv t) {item : khash_item_t} {i : Nat}
    {chain : List khash_item_t} (h : khash_min item.hash.key t.bits_num = some i)
    (hc : t.ht[i]? = some chain)
    (hnew : chain.find? (fun x => khash_key_match x.hash item.hash) = none) :
    khash_add_item t item = some (0, linked t i item chain) := by
  obtain ⟨chain1, hc1, hcnt⟩ := hinv.bucket h
  rw [hc] at hc1
  cases hc1
  simp [khash_add_item, lookup2_eq h hc, hnew, h, khash_hash_idx_get, hc, hcnt, Khash.linked]

theorem add_item_dup {t : khash_t} {item old : khash_item_t} {i : Nat}
    {chain : List khash_item_t} (h : khash_min item.hash.key t.bits_num = some i)
    (hc : t.ht[i]? = some chain)
    (hold : chain.find? (fun x => khash_key_match x.hash item.hash) = some old) :
    khash_add_item t item = some (-1, t) := by
  simp [khash_add_item, lookup2_eq h hc, hold]

theorem add_item_undefined {t : khash_t} (item : khash_item_t) (h : t.bits_num = 0) :
    khash_add_item t item = none := by
  simp [khash_add_item, lookup2_undefined item.hash h]

/-- What `khash_add_item` does on a well-formed table, case by case. -/
theorem add_item_cases {t : khash_t} (hinv : Inv t) (item : khash_item_t) :
    (t.bits_num = 0 ∧ khash_add_item t item = none) ∨
    (∃ i chain, khash_min item.hash.key t.bits_num = some i ∧ t.ht[i]? = some chain ∧
      ((∃ old, chain.find? (fun x => khash_key_match x.hash item.hash) = some old ∧
          khash_add_item t item = some (-1, t)) ∨
       (chain.find? (fun x => khash_key_match x.hash item.hash) = none ∧
          khash_add_item t item = some (0, linked t i item chain)))) := by
  by_cases hb : t.bits_num = 0
  · exact Or.inl ⟨hb, add_item_undefined item hb⟩
  · right
    obtain ⟨i, hi, _⟩ := hash_long_lt item.hash.key t.bits_num (by omega) hinv.bits_le
    have hi' : khash_min item.hash.key t.bits_num = some i := hi
    obtain ⟨chain, hc, _⟩ := hinv.bucket hi'
    refine ⟨i, chain, hi', hc, ?_⟩
    cases hf : chain.find? (fun x => khash_key_match x.hash item.hash) with
    | none => exact Or.inr ⟨rfl, add_item_ok hinv hi' hc hf⟩
    | some old => exact Or.inl ⟨old, rfl, add_item_dup hi' hc hf⟩

theorem addentry_inv {t t1 : khash_t} (hinv : Inv t) {k : khash_key_t} {v : Nat} {a : Bool}
    {r : Int} (h : khash_addentry t k v a = some (r, t1)) : Inv t1 := by
  unfold khash_addentry at h
  cases a with
  | false => simp at h; rw [← h.2]; exact hinv
  | true =>
    simp only [if_true] at h
    rcases add_item_cases hinv ⟨k, v⟩ with ⟨_, hn⟩ | ⟨i, chain, hi, hc, ⟨old, hf, he⟩ | ⟨hf, he⟩⟩
    · rw [hn] at h; simp at h
    · rw [he] at h; simp at h; rw [← h.2]; exact hinv
    · rw [he] at h; simp at h; rw [← h.2]; exact hinv.linked hi hc hf

theorem rementry_step {t : khash_t} (hinv : Inv t) {b : Nat} {chain : List khash_item_t}
    {item : khash_item_t} (hc : t.ht[b]? = some chain) (hit : item ∈ chain) :
    __khash_rementry t b item = some (unlinked t b item chain) := by
  have hh := hinv.home b chain hc item hit
  have hcnt := hinv.cnt b chain hc
  simp [__khash_rementry, hh, hcnt, hc, unlinked]

theorem Inv.unlinked {t : khash_t} (hinv : Inv t) {b : Nat} {chain : List khash_item_t}
    {item : khash_item_t} (hc : t.ht[b]? = some chain) (hit : item ∈ chain) :
    Inv (unlinked t b item chain) := by
  have hlt : b < t.ht.length := (List.getElem?_eq_some.1 hc).1
  have hlt2 : b < t.ht_count.length := by rw [hinv.len_cnt, ← hinv.len_ht]; exact hlt
  have hlen : (chain.erase item).length = chain.length - 1 := List.length_erase_of_mem hit
  have hpos : 1 ≤ chain.length := List.length_pos_of_mem hit
  refine ⟨hinv.bits_le, hinv.bck, ?_, ?_, ?_, ?_, ?_, ?_⟩
  · simp [Khash.unlinked, hinv.len_ht]
  · simp [Khash.unlinked, hinv.len_cnt]
  · intro b1 ch hb it hmem
    simp only [Khash.unlinked] at hb
    by_cases hbi : b = b1
    · subst hbi
      rw [List.getElem?_set_self hlt] at hb
      cases hb
      exact hinv.home b chain hc it (List.mem_of_mem_erase hmem)
    · rw [List.getElem?_set_ne hbi] at hb
      exact hinv.home b1 ch hb it hmem
  · intro ch hch
    simp only [Khash.unlinked] at hch
    rcases List.mem_or_eq_of_mem_set hch with hch | rfl
    · exact hinv.distinct ch hch
    · exact (hinv.distinct chain (List.getElem?_mem hc)).sublist (List.erase_sublist _ _)
  · intro b1 ch hb
    simp only [Khash.unlinked] at hb ⊢
    by_cases hbi : b = b1
    · subst hbi
      rw [List.getElem?_set_self hlt] at hb
      cases hb
      rw [List.getElem?_set_self hlt2, hlen]
      simp only [u32_dec, Option.some.injEq]
      split_ifs <;> omega
    · rw [List.getElem?_set_ne hbi] at hb
      rw [List.getElem?_set_ne hbi]
      exact hinv.cnt b1 ch hb
  · have hs := sum_length_set t.ht b (chain.erase item) chain hc
    have ht := hinv.total
    rw [hlen] at hs
    simp only [Khash.unlinked, live, u32_dec] at hs ht ⊢
    split_ifs <;> omega

/-- What `khash_rementry` does on a well-formed table, case by case. -/
theorem rementry_cases {t : khash_t} (hinv : Inv t) (k : khash_key_t) :
    (t.bits_num = 0 ∧ khash_rementry t k = none) ∨
    (∃ i chain, khash_min k.key t.bits_num = some i ∧ t.ht[i]? = some chain ∧
      ((chain.find? (fun x => khash_key_match x.hash k) = none ∧
          khash_rementry t k = some (-1, 0, t)) ∨
       (∃ item, chain.find? (fun x => khash_key_match x.hash k) = some item ∧
          khash_rementry t k = some (0, item.value, unlinked t i item chain)))) := by
  by_cases hb : t.bits_num = 0
  · refine Or.inl ⟨hb, ?_⟩
    simp [khash_rementry, lookup2_undefined k hb]
  · right
    obtain ⟨i, hi, _⟩ := hash_long_lt k.key t.bits_num (by omega) hinv.bits_le
    have hi' : khash_min k.key t.bits_num = some i := hi
    obtain ⟨chain, hc, _⟩ := hinv.bucket hi'
    refine ⟨i, chain, hi', hc, ?_⟩
    cases hf : chain.find? (fun x => khash_key_match x.hash k) with
    | none =>
      refine Or.inl ⟨rfl, ?_⟩
      simp [khash_rementry, lookup2_eq hi' hc, hf]
    | some item =>
      refine Or.inr ⟨item, rfl, ?_⟩
      have hmem : item ∈ chain := List.mem_of_find?_eq_some hf
      simp [khash_rementry, lookup2_eq hi' hc, hf, hi', rementry_step hinv hc hmem]

theorem rementry_inv {t t1 : khash_t} (hinv : Inv t) {k : khash_key_t} {r : Int} {v : Nat}
    (h : khash_rementry t k = some (r, v, t1)) : Inv t1 := by
  rcases rementry_cases hinv k with ⟨_, hn⟩ | ⟨i, chain, hi, hc, ⟨hf, he⟩ | ⟨item, hf, he⟩⟩
  · rw [hn] at h; simp at h
  · rw [he] at h; simp at h; rw [← h.2.2]; exact hinv
  · rw [he] at h; simp at h; rw [← h.2.2]
    exact hinv.unlinked hc (List.mem_of_find?_eq_some hf)

theorem khash_init_eq (c : Nat) :
    khash_init true c = some
      { count := 0, bck_num := 2 ^ min 24 (Nat.clog 2 (max 1 c)),
        bits_num := min 24 (Nat.clog 2 (max 1 c)),
        ht_count := List.replicate (2 ^ min 24 (Nat.clog 2 (max 1 c))) 0,
        ht := List.replicate (2 ^ min 24 (Nat.clog 2 (max 1 c))) [] } := by
  have hb := khash_init_bits_spec c 0 (by omega) (Nat.zero_le _)
  have hlt : 2 ^ min 24 (Nat.clog 2 (max 1 c)) < 2 ^ 32 :=
    Nat.pow_lt_pow_right (by norm_num) (lt_of_le_of_lt (min_le_left _ _) (by norm_num))
  simp only [khash_init, if_true, hb, Nat.one_shiftLeft, Nat.mod_eq_of_lt hlt]

theorem init_inv {c : Nat} {t : khash_t} (h : khash_init true c = some t) : Inv t := by
  rw [khash_init_eq] at h
  cases h
  refine ⟨min_le_left _ _, rfl, by simp, by simp, ?_, ?_, ?_, ?_⟩
  · intro b chain hb it hit
    rw [List.getElem?_replicate] at hb
    split at hb
    · cases hb; simp at hit
    · simp at hb
  · intro chain hch
    rw [List.eq_of_mem_replicate hch]
    exact List.Pairwise.nil
  · intro b chain hb
    simp only at hb ⊢
    rw [List.getElem?_replicate] at hb ⊢
    split at hb
    · rename_i hlt
      cases hb
      simp [hlt]
    · simp at hb
  · simp [live]

theorem list_set_self {α : Type} (l : List α) (i : Nat) (a : α) (h : l[i]? = some a) :
    l.set i a = l := by
  induction l generalizing i with
  | nil => rfl
  | cons x l ih =>
    cases i with
    | zero => simp at h; simp [h]
    | succ i => simp at h; simp [ih i h]

theorem flush_chain_spec (b : Nat) (chain : List khash_item_t) :
    ∀ t : khash_t, Inv t → t.ht[b]? = some chain →
      ∃ t1, khash_flush_chain b chain t = some t1 ∧ Inv t1 ∧
        t1.ht = t.ht.set b [] ∧ t1.bits_num = t.bits_num ∧ t1.bck_num = t.bck_num := by
  induction chain with
  | nil =>
    intro t hinv hc
    refine ⟨t, rfl, hinv, ?_, rfl, rfl⟩
    exact (list_set_self _ _ _ hc).symm
  | cons item rest ih =>
    intro t hinv hc
    have hmem : item ∈ item :: rest := List.mem_cons_self _ _
    have hlt : b < t.ht.length := (List.getElem?_eq_some.1 hc).1
    have hstep := rementry_step hinv hc hmem
    have hinv1 := hinv.unlinked hc hmem
    have hc1 : (unlinked t b item (item :: rest)).ht[b]? = some rest := by
      simp only [unlinked, List.erase_cons_head]
      exact List.getElem?_set_self hlt
    obtain ⟨t1, h1, hinv2, hht, hbits, hbck⟩ := ih _ hinv1 hc1
    refine ⟨t1, ?_, hinv2, ?_, hbits, hbck⟩
    · simp only [khash_flush_chain, hstep]
      exact h1
    · rw [hht]
      simp only [unlinked, List.set_set]

theorem flush_loop_spec (n : Nat) :
    ∀ (idx : Nat) (t : khash_t), Inv t → idx + n = t.bck_num →
      (∀ b, b < idx → t.ht[b]? = some []) →
      ∃ t1, khash_flush_loop n idx t = some t1 ∧ Inv t1 ∧
        t1.bits_num = t.bits_num ∧ t1.bck_num = t.bck_num ∧
        ∀ b, b < t1.bck_num → t1.ht[b]? = some [] := by
  induction n with
  | zero =>
    intro idx t hinv hn hdone
    refine ⟨t, rfl, hinv, rfl, rfl, ?_⟩
    intro b hb
    exact hdone b (by omega)
  | succ n ih =>
    intro idx t hinv hn hdone
    have hlt : idx < t.ht.length := by rw [hinv.len_ht]; omega
    have hc : t.ht[idx]? = some t.ht[idx] := List.getElem?_eq_getElem hlt
    obtain ⟨t1, h1, hinv1, hht, hbits, hbck⟩ := flush_chain_spec idx _ t hinv hc
    obtain ⟨t2, h2, hinv2, hbits2, hbck2, hall⟩ := ih (idx + 1) t1 hinv1 (by omega) (by
      intro b hb
      rw [hht]
      by_cases hbi : idx = b
      · subst hbi; exact List.getElem?_set_self hlt
      · rw [List.getElem?_set_ne hbi]; exact hdone b (by omega))
    refine ⟨t2, ?_, hinv2, by rw [hbits2, hbits], by rw [hbck2, hbck], hall⟩
    simp only [khash_flush_loop, hc, h1]
    exact h2

theorem flush_spec {t : khash_t} (hinv : Inv t) :
    ∃ t1, khash_flush t = some t1 ∧ Inv t1 ∧ t1.bits_num = t.bits_num ∧
      t1.bck_num = t.bck_num ∧ ∀ b, b < t1.bck_num → t1.ht[b]? = some [] :=
  flush_loop_spec t.bck_num 0 t hinv (by omega) (by intro b hb; omega)

theorem Reachable.inv {P : khash_key_t → Prop} {t : khash_t} (h : Reachable P t) : Inv t := by
  induction h with
  | init c t h => exact init_inv h
  | add t t1 k v a r _ _ h ih => exact addentry_inv ih h
  | rem t t1 k r v _ h ih => exact rementry_inv ih h
  | flush t t1 _ h ih =>
    obtain ⟨t2, h2, hinv2, _⟩ := flush_spec ih
    rw [h2] at h
    cases h
    exact hinv2

theorem lookup_eq {t : khash_t} {k : khash_key_t} {i : Nat} {chain : List khash_item_t}
    (h : khash_min k.key t.bits_num = some i) (hc : t.ht[i]? = some chain) :
    khash_lookup t k =
      match chain.find? (fun item => khash_key_match item.hash k) with
      | none => some (-1, 0)
      | some item => some (0, item.value) := by
  rw [khash_lookup, lookup2_eq h hc]
  cases chain.find? (fun item => khash_key_match item.hash k) <;> rfl

theorem lookup2_eq_lookup (t : khash_t) (k : khash_key_t) :
    khash_lookup2 t k = khash_lookup t k := rfl

theorem key_match_self (k : khash_key_t) : khash_key_match k k = true := by
  simp [khash_key_match]

theorem erase_no_match (chain : List khash_item_t) (item : khash_item_t)
    (hp : chain.Pairwise (fun a b => a.hash.words ≠ b.hash.words)) (hmem : item ∈ chain) :
    ∀ x ∈ chain.erase item, x.hash.words ≠ item.hash.words := by
  induction chain with
  | nil => simp at hmem
  | cons a l ih =>
    rw [List.pairwise_cons] at hp
    intro x hx
    rw [List.erase_cons] at hx
    by_cases ha : a = item
    · subst ha
      simp only [beq_self_eq_true, if_true] at hx
      exact fun e => hp.1 x hx e.symm
    · have hne : (a == item) = false := by simpa using ha
      rw [hne] at hx
      simp only [Bool.false_eq_true, if_false] at hx
      have hmem1 : item ∈ l := by
        rcases List.mem_cons.1 hmem with e | e
        · exact absurd e.symm ha
        · exact e
      rcases List.mem_cons.1 hx with rfl | hx
      · exact hp.1 item hmem1
      · exact ih hp.2 hmem1 x hx

theorem find_erase_of_not_match (p : khash_item_t → Bool) (chain : List khash_item_t)
    (item : khash_item_t) (hp : p item = false) :
    (chain.erase item).find? p = chain.find? p := by
  induction chain with
  | nil => rfl
  | cons a l ih =>
    rw [List.erase_cons]
    by_cases ha : a = item
    · subst ha
      simp [List.find?_cons, hp]
    · have hne : (a == item) = false := by simpa using ha
      rw [hne]
      simp only [Bool.false_eq_true, if_false, List.find?_cons, ih]

/-- After a successful add the key is found with the value added: on a well-formed table
whose index width is at least one bit, adding a key that matches no linked item returns 0
and both lookups then return the value. -/
theorem add_then_lookup {t : khash_t} (hinv : Inv t) (hbits : 1 ≤ t.bits_num)
    (k : khash_key_t) (v : Nat)
    (habsent : ∀ it ∈ t.ht.flatten, khash_key_match it.hash k = false) :
    ∃ t1, khash_addentry t k v true = some (0, t1) ∧ Inv t1 ∧
      khash_lookup t1 k = some (0, v) ∧ khash_lookup2 t1 k = some (0, v) := by
  rcases add_item_cases hinv ⟨k, v⟩ with ⟨h0, _⟩ | ⟨i, chain, hi, hc, ⟨old, hf, _⟩ | ⟨hf, he⟩⟩
  · omega
  · have hmem := List.mem_of_find?_eq_some hf
    have hp := List.find?_some hf
    have := habsent old (List.mem_flatten.2 ⟨chain, List.getElem?_mem hc, hmem⟩)
    simp only at hp
    rw [this] at hp
    cases hp
  · have hlt : i < t.ht.length := (List.getElem?_eq_some.1 hc).1
    have hc1 : (linked t i ⟨k, v⟩ chain).ht[i]? = some (⟨k, v⟩ :: chain) := by
      simp only [linked]
      exact List.getElem?_set_self hlt
    have hl : khash_lookup (linked t i ⟨k, v⟩ chain) k = some (0, v) := by
      rw [lookup_eq (t := linked t i ⟨k, v⟩ chain) hi hc1]
      simp [List.find?_cons, key_match_self]
    refine ⟨linked t i ⟨k, v⟩ chain, ?_, hinv.linked hi hc hf, hl, hl⟩
    simp [khash_addentry, he]

/-- Removal on a well-formed table: a stored key is removed with its value and is no longer
found, a key that is not found leaves the table as it is. -/
theorem rem_then_lookup {t : khash_t} (hinv : Inv t) (k : khash_key_t) :
    (∀ v, khash_lookup t k = some (0, v) →
      ∃ t1, khash_rementry t k = some (0, v, t1) ∧ Inv t1 ∧ khash_lookup t1 k = some (-1, 0)) ∧
    (khash_lookup t k = some (-1, 0) → khash_rementry t k = some (-1, 0, t)) := by
  rcases rementry_cases hinv k with ⟨h0, _⟩ | ⟨i, chain, hi, hc, ⟨hf, he⟩ | ⟨item, hf, he⟩⟩
  · have : khash_lookup t k = none := by simp [khash_lookup, lookup2_undefined k h0]
    simp [this]
  · rw [lookup_eq hi hc, hf]
    simp [he]
  · rw [lookup_eq hi hc, hf]
    have hmem := List.mem_of_find?_eq_some hf
    have hlt : i < t.ht.length := (List.getElem?_eq_some.1 hc).1
    refine ⟨?_, by simp⟩
    intro v hv
    simp only [Option.some.injEq, Prod.mk.injEq, true_and] at hv
    subst hv
    refine ⟨_, he, hinv.unlinked hc hmem, ?_⟩
    have hc1 : (unlinked t i item chain).ht[i]? = some (chain.erase item) := by
      simp only [unlinked]
      exact List.getElem?_set_self hlt
    rw [lookup_eq (t := unlinked t i item chain) hi hc1]
    have hnone : (chain.erase item).find? (fun x => khash_key_match x.hash k) = none := by
      rw [List.find?_eq_none]
      intro x hx
      have h1 := erase_no_match chain item (hinv.distinct chain (List.getElem?_mem hc)) hmem x hx
      have h2 := List.find?_some hf
      simp only [khash_key_match, decide_eq_true_eq] at h2 ⊢
      rw [← h2]
      exact h1
    rw [hnone]

theorem live_eq_zero_of_empty {t : khash_t} (hinv : Inv t)
    (h : ∀ b, b < t.bck_num → t.ht[b]? = some []) : live t = 0 := by
  unfold live
  apply List.sum_eq_zero
  intro x hx
  obtain ⟨chain, hch, rfl⟩ := List.mem_map.1 hx
  obtain ⟨b, hb⟩ := List.mem_iff_getElem?.1 hch
  have hlt : b < t.ht.length := (List.getElem?_eq_some.1 hb).1
  rw [h b (by rw [← hinv.len_ht]; exact hlt)] at hb
  cases hb
  rfl

theorem khash_size_of_count {t : khash_t} {n : Nat} (h : t.count = n) (hn : n < 2 ^ 31) :
    khash_size t = n := by
  have h1 : n % 2 ^ 32 = n := Nat.mod_eq_of_lt (by omega)
  simp only [khash_size, h, h1, if_pos hn]

/-- Flushing a well-formed table empties it and keeps its geometry; when the index width is
at least one bit every lookup then fails and every add succeeds. -/
theorem flush_then {t : khash_t} (hinv : Inv t) :
    ∃ t1, khash_flush t = some t1 ∧ Inv t1 ∧ khash_size t1 = 0 ∧ t1.count = 0 ∧
      (∀ c ∈ t1.ht_count, c = 0) ∧ live t1 = 0 ∧
      t1.bck_num = t.bck_num ∧ t1.bits_num = t.bits_num ∧
      t1.ht.length = t.ht.length ∧ t1.ht_count.length = t.ht_count.length ∧
      (1 ≤ t.bits_num → ∀ k, khash_lookup t1 k = some (-1, 0) ∧
        ∀ v, ∃ t2, khash_addentry t1 k v true = some (0, t2) ∧
          khash_lookup t2 k = some (0, v)) := by
  obtain ⟨t1, h1, hinv1, hbits, hbck, hall⟩ := flush_spec hinv
  have hlive := live_eq_zero_of_empty hinv1 hall
  have hcount : t1.count = 0 := by rw [hinv1.total, hlive]; rfl
  have hflat : ∀ it ∈ t1.ht.flatten, False := by
    intro it hit
    obtain ⟨chain, hch, hmem⟩ := List.mem_flatten.1 hit
    obtain ⟨b, hb⟩ := List.mem_iff_getElem?.1 hch
    have hlt : b < t1.ht.length := (List.getElem?_eq_some.1 hb).1
    rw [hall b (by rw [← hinv1.len_ht]; exact hlt)] at hb
    cases hb
    simp at hmem
  refine ⟨t1, h1, hinv1, khash_size_of_count hcount (by norm_num), hcount, ?_, hlive, hbck,
    hbits, by rw [hinv1.len_ht, hinv.len_ht, hbck], by rw [hinv1.len_cnt, hinv.len_cnt, hbck],
    ?_⟩
  · intro c hc
    obtain ⟨b, hb⟩ := List.mem_iff_getElem?.1 hc
    have hlt : b < t1.ht_count.length := (List.getElem?_eq_some.1 hb).1
    have hb1 : b < t1.bck_num := by rw [← hinv1.len_cnt]; exact hlt
    have := hinv1.cnt b [] (hall b hb1)
    rw [hb] at this
    simpa using this
  · intro hpos k
    have hpos1 : 1 ≤ t1.bits_num := by rw [hbits]; exact hpos
    obtain ⟨i, hi, hilt⟩ := hash_long_lt k.key t1.bits_num hpos1 hinv1.bits_le
    have hi1 : khash_min k.key t1.bits_num = some i := hi
    have hc : t1.ht[i]? = some [] := hall i (by rw [hinv1.bck]; exact hilt)
    refine ⟨by rw [lookup_eq hi1 hc]; rfl, ?_⟩
    intro v
    obtain ⟨t2, h2, _, hl, _⟩ :=
      add_then_lookup hinv1 hpos1 k v (fun it hit => (hflat it hit).elim)
    exact ⟨t2, h2, hl⟩

/-- The counters of a well-formed table that holds fewer than `2 ^ 31` entries. -/
theorem counters_exact {t : khash_t} (hinv : Inv t) (hsmall : live t < 2 ^ 31) :
    (∀ (b : Nat) (chain : List khash_item_t), t.ht[b]? = some chain →
      t.ht_count[b]? = some chain.length) ∧
    t.count = live t ∧ khash_size t = live t ∧ t.ht_count.sum = live t ∧
    live t = t.ht.flatten.length := by
  have hlen : ∀ (b : Nat) (chain : List khash_item_t), t.ht[b]? = some chain →
      chain.length ≤ live t := by
    intro b chain hb
    unfold live
    exact List.single_le_sum (by intro x _; exact Nat.zero_le x) _
      (List.mem_map.2 ⟨chain, List.getElem?_mem hb, rfl⟩)
  have hcnt : ∀ (b : Nat) (chain : List khash_item_t), t.ht[b]? = some chain →
      t.ht_count[b]? = some chain.length := by
    intro b chain hb
    rw [hinv.cnt b chain hb, Nat.mod_eq_of_lt]
    have := hlen b chain hb
    omega
  have hcount : t.count = live t := by rw [hinv.total]; exact Nat.mod_eq_of_lt (by omega)
  refine ⟨hcnt, hcount, khash_size_of_count hcount hsmall, ?_, ?_⟩
  · have : t.ht_count = t.ht.map List.length := by
      apply List.ext_getElem?
      intro b
      rw [List.getElem?_map]
      cases hb : t.ht[b]? with
      | none =>
        have : t.ht.length ≤ b := List.getElem?_eq_none_iff.1 hb
        simp only [Option.map_none']
        exact List.getElem?_eq_none_iff.2 (by rw [hinv.len_cnt, ← hinv.len_ht]; exact this)
      | some chain => simpa using hcnt b chain hb
    rw [this]
    rfl
  · simp [live]
theorem clog_two_eq {n k : Nat} (h1 : 2 ^ k < n) (h2 : n ≤ 2 ^ (k + 1)) :
    Nat.clog 2 n = k + 1 := by
  have a := (Nat.pow_lt_iff_lt_clog (by norm_num : 1 < 2)).1 h1
  have b := (Nat.le_pow_iff_clog_le (by norm_num : 1 < 2)).1 h2
  omega

theorem khash_hash_u32_eq (x : Nat) :
    khash_hash_u32 x = ⟨x % 2 ^ 32, 0, 0, khash_64 (x % 2 ^ 32)⟩ := by
  have e : x % 4294967296 % 18446744073709551616 = x % 4294967296 :=
    Nat.mod_eq_of_lt (by omega)
  simp [khash_hash_u32, __khash_key_hash, key_set_word, key_zero, key_word, List.range_succ, e]

theorem khash_hash_u64_eq (x : Nat) :
    khash_hash_u64 x = ⟨x % 2 ^ 64, 0, 0, khash_64 (x % 2 ^ 64)⟩ := by
  simp [khash_hash_u64, __khash_key_hash, key_memcpy, key_set_word, key_zero, key_word,
    List.range_succ]

theorem khash_hash_u128_eq (lo hi : Nat) :
    khash_hash_u128 lo hi =
      ⟨lo % 2 ^ 64, hi % 2 ^ 64, 0, khash_64 (lo % 2 ^ 64) ^^^ khash_64 (hi % 2 ^ 64)⟩ := by
  simp [khash_hash_u128, __khash_key_hash, key_memcpy, key_set_word, key_zero, key_word,
    List.range_succ]

theorem khash_64_zero : khash_64 0 = 0 := by
  simp [khash_64, khash_64_generic]

theorem khash_hash_u160_eq (lo hi x : Nat) :
    khash_hash_u160 lo hi x =
      ⟨lo % 2 ^ 64, 0, x % 2 ^ 32, khash_64 (lo % 2 ^ 64) ^^^ khash_64 (x % 2 ^ 32)⟩ := by
  have e : x % 4294967296 % 18446744073709551616 = x % 4294967296 :=
    Nat.mod_eq_of_lt (by omega)
  simp [khash_hash_u160, __khash_key_hash, key_memcpy, key_set_word, key_zero, key_word,
    List.range_succ, e, khash_64_zero]

theorem EncoderKey.fold {k : khash_key_t} (h : EncoderKey k) : k.key = key_fold k := by
  rcases h with ⟨x, rfl⟩ | ⟨x, rfl⟩ | ⟨lo, hi, rfl⟩ | ⟨lo, hi, x, rfl⟩
  · simp [khash_hash_u32_eq, key_fold, khash_64_zero]
  · simp [khash_hash_u64_eq, key_fold, khash_64_zero]
  · simp [khash_hash_u128_eq, key_fold, khash_64_zero]
  · simp [khash_hash_u160_eq, key_fold, khash_64_zero]

theorem khash_init_one : khash_init true 1 = some ⟨0, 1, 0, [0], [[]]⟩ := by
  rw [khash_init_eq]
  simp

theorem khash_init_zero : khash_init true 0 = some ⟨0, 1, 0, [0], [[]]⟩ := by
  rw [khash_init_eq]
  simp

theorem khash_init_two : khash_init true 2 = some ⟨0, 2, 1, [0, 0], [[], []]⟩ := by
  rw [khash_init_eq]
  have : Nat.clog 2 (max 1 2) = 1 := clog_two_eq (k := 0) (by norm_num) (by norm_num)
  rw [this]
  simp [List.replicate]

theorem khash_init_sixteen :
    khash_init true 16 = some ⟨0, 16, 4, List.replicate 16 0, List.replicate 16 []⟩ := by
  rw [khash_init_eq]
  have : Nat.clog 2 (max 1 16) = 4 := clog_two_eq (k := 3) (by norm_num) (by norm_num)
  rw [this]
  simp
theorem add_absent_struct {t : khash_t} (hinv : Inv t) (hbits : 1 ≤ t.bits_num)
    (k : khash_key_t) (v : Nat)
    (habsent : ∀ it ∈ t.ht.flatten, khash_key_match it.hash k = false) :
    ∃ i chain, t.ht[i]? = some chain ∧
      khash_addentry t k v true = some (0, linked t i ⟨k, v⟩ chain) := by
  rcases add_item_cases hinv ⟨k, v⟩ with ⟨h0, _⟩ | ⟨i, chain, hi, hc, ⟨old, hf, _⟩ | ⟨hf, he⟩⟩
  · omega
  · have hmem := List.mem_of_find?_eq_some hf
    have hp := List.find?_some hf
    have := habsent old (List.mem_flatten.2 ⟨chain, List.getElem?_mem hc, hmem⟩)
    simp only at hp
    rw [this] at hp
    cases hp
  · exact ⟨i, chain, hc, by simp [khash_addentry, he]⟩

theorem live_linked {t : khash_t} {i : Nat} {chain : List khash_item_t} (item : khash_item_t)
    (hc : t.ht[i]? = some chain) : live (linked t i item chain) = live t + 1 := by
  have hs := sum_length_set t.ht i (item :: chain) chain hc
  simp only [linked, live, List.length_cons] at hs ⊢
  omega

theorem mem_flatten_linked {t : khash_t} {i : Nat} {chain : List khash_item_t}
    {item it : khash_item_t} (hc : t.ht[i]? = some chain)
    (h : it ∈ (linked t i item chain).ht.flatten) : it = item ∨ it ∈ t.ht.flatten := by
  obtain ⟨l, hl, hit⟩ := List.mem_flatten.1 h
  simp only [linked] at hl
  rcases List.mem_or_eq_of_mem_set hl with hl | rfl
  · exact Or.inr (List.mem_flatten.2 ⟨l, hl, hit⟩)
  · rcases List.mem_cons.1 hit with e | e
    · exact Or.inl e
    · exact Or.inr (List.mem_flatten.2 ⟨chain, List.getElem?_mem hc, e⟩)

theorem live_eq_length (t : khash_t) : live t = t.ht.flatten.length := by
  simp [live]

theorem fill_spec (P : khash_key_t → Prop) (hP : ∀ x, P (khash_hash_u64 x)) (t0 : khash_t)
    (h0 : Reachable P t0) (hb : 1 ≤ t0.bits_num) (hempty : t0.ht.flatten = []) :
    ∀ n, n ≤ 2 ^ 64 → ∃ t, khash_fill n t0 = some t ∧ Reachable P t ∧
      t.bits_num = t0.bits_num ∧ live t = n ∧ ∀ it ∈ t.ht.flatten, it.hash.w0 < n := by
  intro n
  induction n with
  | zero =>
    intro _
    refine ⟨t0, rfl, h0, rfl, by rw [live_eq_length, hempty]; rfl, ?_⟩
    intro it hit
    rw [hempty] at hit
    simp at hit
  | succ n ih =>
    intro hn
    obtain ⟨t, hfill, hreach, hbits, hlive, hlt⟩ := ih (by omega)
    have hkey : (khash_hash_u64 n).w0 = n := by
      rw [khash_hash_u64_eq]
      exact Nat.mod_eq_of_lt (by omega)
    have habsent : ∀ it ∈ t.ht.flatten, khash_key_match it.hash (khash_hash_u64 n) = false := by
      intro it hit
      have h1 := hlt it hit
      simp only [khash_key_match, khash_key_t.words, decide_eq_false_iff_not, hkey]
      intro e
      have : it.hash.w0 = n := by injection e
      omega
    obtain ⟨i, chain, hc, hadd⟩ :=
      add_absent_struct hreach.inv (by rw [hbits]; exact hb) (khash_hash_u64 n) 0 habsent
    refine ⟨linked t i ⟨khash_hash_u64 n, 0⟩ chain, ?_, ?_, hbits, ?_, ?_⟩
    · simp only [khash_fill, hfill, hadd]
    · exact Reachable.add t _ _ 0 true 0 hreach (hP n) hadd
    · rw [live_linked _ hc, hlive]
    · intro it hit
      rcases mem_flatten_linked hc hit with rfl | h
      · show (khash_hash_u64 n).w0 < n + 1
        omega
      · have := hlt it h
        omega

theorem table_one_entry_reachable (P : khash_key_t → Prop) (hP : P (khash_hash_u32 1)) :
    Reachable P table_one_entry :=
  Reachable.add ⟨0, 2, 1, [0, 0], [[], []]⟩ table_one_entry (khash_hash_u32 1) 5 true 0
    (Reachable.init 2 _ khash_init_two) hP (by decide)

theorem init_reachable (P : khash_key_t → Prop) (c : Nat) :
    ∃ t, khash_init true c = some t ∧ Reachable P t :=
  ⟨_, khash_init_eq c, Reachable.init c _ (khash_init_eq c)⟩
/-- The bucket index on a table of two or more buckets: for every requested capacity
`c ≥ 2` and every key, `khash_hash_idx_get` is the top `bits_num` bits of the 64-bit
product and lies below `bck_num`; lookup, add and remove read the very same index. -/
theorem idx_in_bounds (c : Nat) (hc : 2 ≤ c) :
    ∃ t, khash_init true c = some t ∧ 1 ≤ t.bits_num ∧ ∀ k : khash_key_t,
      khash_hash_idx_get t k =
        some (((k.key * KHASH_GOLDEN_RATIO_64) % 2 ^ 64) >>> (64 - t.bits_num)) ∧
      ((k.key * KHASH_GOLDEN_RATIO_64) % 2 ^ 64) >>> (64 - t.bits_num) < t.bck_num := by
  have hpos : 1 ≤ min 24 (Nat.clog 2 (max 1 c)) := by
    have : 0 < Nat.clog 2 (max 1 c) :=
      (Nat.pow_lt_iff_lt_clog (by norm_num : 1 < 2)).1
        (lt_of_lt_of_le (by norm_num : 2 ^ 0 < 2) (le_trans hc (le_max_right 1 c)))
    omega
  refine ⟨_, khash_init_eq c, hpos, ?_⟩
  intro k
  have hle : min 24 (Nat.clog 2 (max 1 c)) ≤ 24 := min_le_left _ _
  have hlt : ((k.key * KHASH_GOLDEN_RATIO_64) % 2 ^ 64) >>>
      (64 - min 24 (Nat.clog 2 (max 1 c))) < 2 ^ min 24 (Nat.clog 2 (max 1 c)) := by
    rw [Nat.shiftRight_eq_div_pow, Nat.div_lt_iff_lt_mul (by positivity), ← pow_add]
    have : min 24 (Nat.clog 2 (max 1 c)) + (64 - min 24 (Nat.clog 2 (max 1 c))) = 64 := by
      omega
    rw [this]
    exact Nat.mod_lt _ (by norm_num)
  refine ⟨?_, hlt⟩
  have h32 : ((k.key * KHASH_GOLDEN_RATIO_64) % 2 ^ 64) >>>
      (64 - min 24 (Nat.clog 2 (max 1 c))) < 2 ^ 32 :=
    lt_of_lt_of_le hlt (Nat.pow_le_pow_right (by norm_num) (by omega))
  simp only [khash_hash_idx_get, khash_min, hash_long]
  rw [if_pos ⟨hpos, by omega⟩, Nat.mod_eq_of_lt h32]
theorem foreach_chain_spec {σ : Type} (func : khash_key_t → Nat → σ → Int × σ)
    (chain rest : List khash_item_t) :
    ∀ data : σ,
      ((khash_foreach_chain func chain data).1 = true →
        visit_until_stop func (chain ++ rest) data =
          ((khash_foreach_chain func chain data).2.1,
           (khash_foreach_chain func chain data).2.2)) ∧
      ((khash_foreach_chain func chain data).1 = false →
        visit_until_stop func (chain ++ rest) data =
          ((visit_until_stop func rest (khash_foreach_chain func chain data).2.1).1,
           (khash_foreach_chain func chain data).2.2 ++
             (visit_until_stop func rest (khash_foreach_chain func chain data).2.1).2)) := by
  induction chain with
  | nil => intro data; simp [khash_foreach_chain]
  | cons item chain ih =>
    intro data
    by_cases hr : (func item.hash item.value data).1 = 0
    · have := ih (func item.hash item.value data).2
      simp only [khash_foreach_chain, visit_until_stop, List.cons_append, hr, ne_eq,
        not_true_eq_false, if_false, List.append_eq]
      constructor
      · intro h
        rw [this.1 h]
      · intro h
        rw [this.2 h]
    · simp [khash_foreach_chain, visit_until_stop, hr]

theorem foreach_loop_spec {σ : Type} (func : khash_key_t → Nat → σ → Int × σ) (kh : khash_t)
    (n : Nat) :
    ∀ (idx : Nat) (data : σ), idx + n = kh.ht.length →
      khash_foreach_loop func kh n idx data =
        some (visit_until_stop func (kh.ht.drop idx).flatten data) := by
  induction n with
  | zero =>
    intro idx data h
    have : kh.ht.drop idx = [] := List.drop_eq_nil_of_le (by omega)
    simp [khash_foreach_loop, this, visit_until_stop]
  | succ n ih =>
    intro idx data h
    have hlt : idx < kh.ht.length := by omega
    have hc : kh.ht[idx]? = some kh.ht[idx] := List.getElem?_eq_getElem hlt
    have hdrop : kh.ht.drop idx = kh.ht[idx] :: kh.ht.drop (idx + 1) :=
      (List.getElem_cons_drop _ _ hlt).symm
    have hspec := foreach_chain_spec func kh.ht[idx] (kh.ht.drop (idx + 1)).flatten data
    rw [hdrop, List.flatten_cons]
    simp only [khash_foreach_loop, hc]
    cases hs : (khash_foreach_chain func kh.ht[idx] data).1 with
    | true =>
      rw [hspec.1 hs]
      simp
    | false =>
      rw [hspec.2 hs, ih (idx + 1) _ (by omega)]
      simp

theorem foreach_spec {σ : Type} (func : khash_key_t → Nat → σ → Int × σ) {t : khash_t}
    (hinv : Inv t) (data : σ) :
    khash_foreach t func data = some (visit_until_stop func t.ht.flatten data) := by
  have := foreach_loop_spec func t t.bck_num 0 data (by rw [hinv.len_ht]; omega)
  simpa [khash_foreach] using this

theorem visit_all {σ : Type} (func : khash_key_t → Nat → σ → Int × σ)
    (h0 : ∀ k v d, (func k v d).1 = 0) (l : List khash_item_t) :
    ∀ data : σ, visit_until_stop func l data =
      (l.foldl (fun d item => (func item.hash item.value d).2) data, l) := by
  induction l with
  | nil => intro data; rfl
  | cons item l ih =>
    intro data
    simp [visit_until_stop, h0, ih]

theorem visit_prefix {σ : Type} (func : khash_key_t → Nat → σ → Int × σ)
    (l : List khash_item_t) :
    ∀ data : σ, (visit_until_stop func l data).2 <+: l := by
  induction l with
  | nil => intro data; simp [visit_until_stop]
  | cons item l ih =>
    intro data
    by_cases hr : (func item.hash item.value data).1 = 0
    · simp only [visit_until_stop, hr, ne_eq, not_true_eq_false, if_false]
      exact (List.prefix_cons_inj item).2 (ih _)
    · simp only [visit_until_stop, hr, ne_eq, not_false_eq_true, if_true]
      exact ⟨l, rfl⟩

theorem nodup_flatten_map {β : Type} (f : khash_item_t → β) (L : List (List khash_item_t))
    (h1 : ∀ l ∈ L, (l.map f).Nodup)
    (h2 : ∀ (i j : Nat) (l1 l2 : List khash_item_t), L[i]? = some l1 → L[j]? = some l2 →
      ∀ x ∈ l1, ∀ y ∈ l2, f x = f y → i = j) :
    (L.flatten.map f).Nodup := by
  rw [List.map_flatten, List.nodup_flatten]
  constructor
  · intro l hl
    obtain ⟨l0, hl0, rfl⟩ := List.mem_map.1 hl
    exact h1 l0 hl0
  · rw [List.pairwise_map, List.pairwise_iff_getElem]
    intro i j hi hj hij
    rw [List.disjoint_left]
    intro a ha hb
    obtain ⟨x, hx, rfl⟩ := List.mem_map.1 ha
    obtain ⟨y, hy, hxy⟩ := List.mem_map.1 hb
    have := h2 i j L[i] L[j] (List.getElem?_eq_getElem hi) (List.getElem?_eq_getElem hj)
      x hx y hy hxy.symm
    omega

theorem Inv.nodup_hash {t : khash_t} (hinv : Inv t) :
    (t.ht.flatten.map (fun item => item.hash)).Nodup := by
  apply nodup_flatten_map
  · intro l hl
    have hp := hinv.distinct l hl
    rw [List.Nodup, List.pairwise_map]
    exact hp.imp (fun {a b} hab e => hab (by rw [e]))
  · intro i j l1 l2 hi hj x hx y hy hxy
    have a := hinv.home i l1 hi x hx
    have b := hinv.home j l2 hj y hy
    rw [hxy, b] at a
    injection a with a
    exact a.symm
theorem mem_flatten_unlinked {t : khash_t} {b : Nat} {chain : List khash_item_t}
    {item it : khash_item_t} (hc : t.ht[b]? = some chain)
    (h : it ∈ (unlinked t b item chain).ht.flatten) : it ∈ t.ht.flatten := by
  obtain ⟨l, hl, hit⟩ := List.mem_flatten.1 h
  simp only [unlinked] at hl
  rcases List.mem_or_eq_of_mem_set hl with hl | rfl
  · exact List.mem_flatten.2 ⟨l, hl, hit⟩
  · exact List.mem_flatten.2 ⟨chain, List.getElem?_mem hc, List.mem_of_mem_erase hit⟩

theorem Reachable.items {P : khash_key_t → Prop} {t : khash_t} (h : Reachable P t) :
    ∀ it ∈ t.ht.flatten, P it.hash := by
  induction h with
  | init c t h =>
    rw [khash_init_eq] at h
    cases h
    intro it hit
    obtain ⟨l, hl, hmem⟩ := List.mem_flatten.1 hit
    rw [List.eq_of_mem_replicate hl] at hmem
    simp at hmem
  | add t t1 k v a r hreach hP h ih =>
    unfold khash_addentry at h
    cases a with
    | false => simp at h; rw [← h.2]; exact ih
    | true =>
      simp only [if_true] at h
      rcases add_item_cases hreach.inv ⟨k, v⟩ with
        ⟨_, hn⟩ | ⟨i, chain, hi, hc, ⟨old, hf, he⟩ | ⟨hf, he⟩⟩
      · rw [hn] at h; simp at h
      · rw [he] at h; simp at h; rw [← h.2]; exact ih
      · rw [he] at h; simp at h; rw [← h.2]
        intro it hit
        rcases mem_flatten_linked hc hit with rfl | hmem
        · exact hP
        · exact ih it hmem
  | rem t t1 k r v hreach h ih =>
    rcases rementry_cases hreach.inv k with
      ⟨_, hn⟩ | ⟨i, chain, hi, hc, ⟨hf, he⟩ | ⟨item, hf, he⟩⟩
    · rw [hn] at h; simp at h
    · rw [he] at h; simp at h; rw [← h.2.2]; exact ih
    · rw [he] at h; simp at h; rw [← h.2.2]
      intro it hit
      exact ih it (mem_flatten_unlinked hc hit)
  | flush t t1 hreach h _ =>
    obtain ⟨t2, h2, hinv2, _, _, hall⟩ := flush_spec hreach.inv
    rw [h2] at h
    cases h
    intro it hit
    obtain ⟨l, hl, hmem⟩ := List.mem_flatten.1 hit
    obtain ⟨b, hb⟩ := List.mem_iff_getElem?.1 hl
    have hlt : b < t1.ht.length := (List.getElem?_eq_some.1 hb).1
    rw [hall b (by rw [← hinv2.len_ht]; exact hlt)] at hb
    cases hb
    simp at hmem

theorem key_fold_of_words {a b : khash_key_t} (h : a.words = b.words) :
    key_fold a = key_fold b := by
  simp only [khash_key_t.words, List.cons.injEq, and_true] at h
  simp only [key_fold, h.1, h.2.1, h.2.2]

theorem nodup_words {t : khash_t} (hinv : Inv t)
    (hfold : ∀ it ∈ t.ht.flatten, it.hash.key = key_fold it.hash) :
    (t.ht.flatten.map (fun item => item.hash.words)).Nodup := by
  apply nodup_flatten_map
  · intro l hl
    rw [List.Nodup, List.pairwise_map]
    exact hinv.distinct l hl
  · intro i j l1 l2 hi hj x hx y hy hxy
    have a := hinv.home i l1 hi x hx
    have b := hinv.home j l2 hj y hy
    have kx := hfold x (List.mem_flatten.2 ⟨l1, List.getElem?_mem hi, hx⟩)
    have ky := hfold y (List.mem_flatten.2 ⟨l2, List.getElem?_mem hj, hy⟩)
    have e : x.hash.key = y.hash.key := by rw [kx, ky, key_fold_of_words hxy]
    simp only [khash_hash_idx_get, e] at a
    simp only [khash_hash_idx_get] at b
    rw [b] at a
    injection a with a
    exact a.symm
theorem stats_loop_eq_foldl (ht_count : List Nat) (n : Nat) :
    ∀ (i : Nat) (acc : stats_acc), i + n = ht_count.length →
      stats_loop ht_count n i acc = some ((ht_count.drop i).foldl stats_step acc) := by
  induction n with
  | zero =>
    intro i acc h
    have : ht_count.drop i = [] := List.drop_eq_nil_of_le (by omega)
    simp [stats_loop, this]
  | succ n ih =>
    intro i acc h
    have hlt : i < ht_count.length := by omega
    have hdrop : ht_count.drop i = ht_count[i] :: ht_count.drop (i + 1) :=
      (List.getElem_cons_drop _ _ hlt).symm
    rw [hdrop]
    simp only [stats_loop, List.getElem?_eq_getElem hlt, List.foldl_cons]
    exact ih (i + 1) _ (by omega)

theorem stats_min_step_mean (s : khash_stats_t) (tmp : Nat) :
    (stats_min_step s tmp).mean = s.mean := by
  unfold stats_min_step
  split_ifs <;> rfl

theorem stats_max_step_mean (s : khash_stats_t) (tmp : Nat) :
    (stats_max_step s tmp).mean = s.mean := by
  unfold stats_max_step
  split_ifs <;> rfl

theorem stats_mode_step_mean (acc : stats_acc) (tmp : Nat) :
    (stats_mode_step acc tmp).stats.mean = acc.stats.mean := by
  unfold stats_mode_step
  split_ifs <;> rfl

theorem stats_step_mean (acc : stats_acc) (tmp : Nat) :
    (stats_step acc tmp).stats.mean = (acc.stats.mean + tmp * 1000) % 2 ^ 64 := by
  simp only [stats_step, stats_mode_step_mean, stats_max_step_mean, stats_min_step_mean,
    PRECISION]
  omega

theorem stats_foldl_mean (l : List Nat) :
    ∀ acc : stats_acc, acc.stats.mean < 2 ^ 64 →
      (l.foldl stats_step acc).stats.mean = (acc.stats.mean + 1000 * l.sum) % 2 ^ 64 := by
  induction l with
  | nil =>
    intro acc h
    simp only [List.foldl_nil, List.sum_nil]
    omega
  | cons c l ih =>
    intro acc h
    have h1 : (stats_step acc c).stats.mean < 2 ^ 64 := by
      rw [stats_step_mean]
      exact Nat.mod_lt _ (by norm_num)
    rw [List.foldl_cons, ih _ h1, stats_step_mean, List.sum_cons]
    omega

theorem stats_mode_loop_fields (s : khash_stats_t) (n : Nat) :
    (stats_mode_loop s n).mean = s.mean ∧ (stats_mode_loop s n).count = s.count ∧
    (stats_mode_loop s n).min = s.min ∧ (stats_mode_loop s n).min_counter = s.min_counter ∧
    (stats_mode_loop s n).max = s.max ∧ (stats_mode_loop s n).max_counter = s.max_counter ∧
    (stats_mode_loop s n).statistical_mode = s.statistical_mode := by
  unfold stats_mode_loop
  induction n with
  | zero => simp
  | succ n ih =>
    rw [List.range_succ, List.foldl_append]
    simp only [List.foldl_cons, List.foldl_nil]
    split_ifs <;> exact ih

theorem stats_get_eq {t : khash_t} (s0 : khash_stats_t) (hb : 1 ≤ t.bck_num)
    (hlen : t.ht_count.length = t.bck_num) :
    khash_stats_get t s0 =
      some (0, stats_finish t.bck_num (t.ht_count.foldl stats_step (stats_start t.count)),
        (t.ht_count.foldl stats_step (stats_start t.count)).oob) := by
  have hloop := stats_loop_eq_foldl t.ht_count t.bck_num 0 (stats_start t.count) (by omega)
  simp only [List.drop_zero] at hloop
  simp only [khash_stats_get, if_neg (show ¬ t.bck_num = 0 by omega), hloop]

theorem stats_finish_mean (bck_num : Nat) (acc : stats_acc) :
    (stats_finish bck_num acc).mean = acc.stats.mean / bck_num / 1000 ∧
    (stats_finish bck_num acc).count = acc.stats.count := by
  simp only [stats_finish, (stats_mode_loop_fields _ _).1, (stats_mode_loop_fields _ _).2.1,
    PRECISION, and_self]

theorem stats_step_count (acc : stats_acc) (tmp : Nat) :
    (stats_step acc tmp).stats.count = acc.stats.count := by
  simp only [stats_step, stats_mode_step, stats_max_step, stats_min_step]
  split_ifs <;> rfl

theorem stats_foldl_count (l : List Nat) :
    ∀ acc : stats_acc, (l.foldl stats_step acc).stats.count = acc.stats.count := by
  induction l with
  | nil => intro acc; rfl
  | cons c l ih => intro acc; rw [List.foldl_cons, ih, stats_step_count]

/-- The mean and the count that `khash_stats_get` reports for a table with at least one
bucket and one counter per bucket. -/
theorem stats_get_mean {t : khash_t} (s0 : khash_stats_t) (hb : 1 ≤ t.bck_num)
    (hlen : t.ht_count.length = t.bck_num) :
    ∃ s oob, khash_stats_get t s0 = some (0, s, oob) ∧
      s.mean = ((1000 * t.ht_count.sum) % 2 ^ 64) / t.bck_num / 1000 ∧
      s.count = t.count % 2 ^ 32 := by
  refine ⟨_, _, stats_get_eq s0 hb hlen, ?_, ?_⟩
  · rw [(stats_finish_mean _ _).1, stats_foldl_mean _ _ (by show (0 : Nat) < 2 ^ 64; norm_num)]
    simp [stats_start, stats_zero]
  · rw [(stats_finish_mean _ _).2, stats_foldl_count]
    rfl
theorem lookup_of_set {t t1 : khash_t} {i : Nat} {chain newchain : List khash_item_t}
    (k2 : khash_key_t) (hbits : t1.bits_num = t.bits_num) (hht : t1.ht = t.ht.set i newchain)
    (hc : t.ht[i]? = some chain)
    (hfind : newchain.find? (fun x => khash_key_match x.hash k2) =
      chain.find? (fun x => khash_key_match x.hash k2)) :
    khash_lookup t1 k2 = khash_lookup t k2 := by
  have hlt : i < t.ht.length := (List.getElem?_eq_some.1 hc).1
  unfold khash_lookup __khash_lookup2
  rw [hbits, hht]
  cases khash_min k2.key t.bits_num with
  | none => rfl
  | some j =>
    by_cases hji : i = j
    · subst hji
      simp only [List.getElem?_set_self hlt, hc, hfind]
    · simp only [List.getElem?_set_ne hji]

theorem words_ne_match {a b : khash_key_t} (h : a.words ≠ b.words) :
    khash_key_match a b = false := by
  simp [khash_key_match, h]

theorem stats_get_congr (t t1 : khash_t) (s0 s1 : khash_stats_t) (hnz : t.bck_num ≠ 0)
    (h1 : t1.bck_num = t.bck_num) (h2 : t1.count = t.count) (h3 : t1.ht_count = t.ht_count) :
    khash_stats_get t1 s1 = khash_stats_get t s0 := by
  simp only [khash_stats_get, h1, h2, h3, if_neg hnz]
theorem visit_stateless {σ : Type} (func : khash_key_t → Nat → σ → Int × σ)
    (hfree : ∀ k v d1 d2, (func k v d1).1 = (func k v d2).1) (d0 : σ)
    (l : List khash_item_t) :
    ∀ data : σ, (visit_until_stop func l data).2 =
      l.takeWhile (fun item => decide ((func item.hash item.value d0).1 = 0)) ++
        (l.dropWhile (fun item => decide ((func item.hash item.value d0).1 = 0))).take 1 := by
  induction l with
  | nil => intro data; rfl
  | cons item l ih =>
    intro data
    by_cases hr : (func item.hash item.value d0).1 = 0
    · have hr1 : (func item.hash item.value data).1 = 0 := by rw [hfree _ _ data d0]; exact hr
      simp [visit_until_stop, hr, hr1, ih]
    · have hr1 : ¬ (func item.hash item.value data).1 = 0 := by
        rw [hfree _ _ data d0]; exact hr
      simp [visit_until_stop, hr, hr1]

theorem stats_step_min (acc : stats_acc) (tmp : Nat) :
    (stats_step acc tmp).stats.min = (if tmp < acc.stats.min then tmp else acc.stats.min) ∧
    (stats_step acc tmp).stats.min_counter =
      (if tmp < acc.stats.min then 1
       else if tmp = acc.stats.min then (acc.stats.min_counter + 1) % 2 ^ 64
       else acc.stats.min_counter) := by
  simp only [stats_step, stats_mode_step, stats_max_step, stats_min_step]
  split_ifs <;> exact ⟨rfl, rfl⟩

theorem stats_step_max (acc : stats_acc) (tmp : Nat) :
    (stats_step acc tmp).stats.max = (if tmp > acc.stats.max then tmp else acc.stats.max) ∧
    (stats_step acc tmp).stats.max_counter =
      (if tmp > acc.stats.max then 1
       else if tmp = acc.stats.max then (acc.stats.max_counter + 1) % 2 ^ 64
       else acc.stats.max_counter) := by
  simp only [stats_step, stats_mode_step, stats_max_step, stats_min_step]
  split_ifs <;> exact ⟨rfl, rfl⟩

theorem min_step_inv (l : List Nat) (x m c : Nat) (h2 : ∀ y ∈ l, m ≤ y)
    (h3 : c = l.count m % 2 ^ 64) :
    (if x < m then x else m) = min m x ∧
    (∀ y ∈ l ++ [x], (if x < m then x else m) ≤ y) ∧
    (if x < m then 1 else if x = m then (c + 1) % 2 ^ 64 else c) =
      (l ++ [x]).count (if x < m then x else m) % 2 ^ 64 := by
  by_cases hlt : x < m
  · simp only [hlt, if_true]
    have hc : l.count x = 0 := by
      rw [List.count_eq_zero]
      intro hx
      have := h2 x hx
      omega
    refine ⟨by rw [Nat.min_def, if_neg (by omega)], ?_, ?_⟩
    · intro y hy
      rcases List.mem_append.1 hy with hy | hy
      · have := h2 y hy; omega
      · rw [List.mem_singleton.1 hy]
    · rw [List.count_append, hc, List.count_singleton_self]
      norm_num
  · simp only [hlt, if_false]
    refine ⟨by rw [Nat.min_def, if_pos (by omega)], ?_, ?_⟩
    · intro y hy
      rcases List.mem_append.1 hy with hy | hy
      · exact h2 y hy
      · rw [List.mem_singleton.1 hy]; omega
    · by_cases heq : x = m
      · subst heq
        rw [if_pos rfl, List.count_append, List.count_singleton_self, h3]
        omega
      · rw [if_neg heq, List.count_append, h3]
        have : [x].count m = 0 := by
          rw [List.count_eq_zero]
          simpa using fun e => heq e.symm
        rw [this, Nat.add_zero]

theorem max_step_inv (l : List Nat) (x m c : Nat) (h2 : ∀ y ∈ l, y ≤ m)
    (h3 : c = l.count m % 2 ^ 64) :
    (if x > m then x else m) = max m x ∧
    (∀ y ∈ l ++ [x], y ≤ (if x > m then x else m)) ∧
    (if x > m then 1 else if x = m then (c + 1) % 2 ^ 64 else c) =
      (l ++ [x]).count (if x > m then x else m) % 2 ^ 64 := by
  by_cases hlt : x > m
  · simp only [hlt, if_true]
    have hc : l.count x = 0 := by
      rw [List.count_eq_zero]
      intro hx
      have := h2 x hx
      omega
    refine ⟨by rw [Nat.max_def, if_pos (by omega)], ?_, ?_⟩
    · intro y hy
      rcases List.mem_append.1 hy with hy | hy
      · have := h2 y hy; omega
      · rw [List.mem_singleton.1 hy]
    · rw [List.count_append, hc, List.count_singleton_self]
      norm_num
  · simp only [hlt, if_false]
    refine ⟨by rw [Nat.max_def]; split_ifs <;> omega, ?_, ?_⟩
    · intro y hy
      rcases List.mem_append.1 hy with hy | hy
      · exact h2 y hy
      · rw [List.mem_singleton.1 hy]; omega
    · by_cases heq : x = m
      · subst heq
        rw [if_pos rfl, List.count_append, List.count_singleton_self, h3]
        omega
      · rw [if_neg heq, List.count_append, h3]
        have : [x].count m = 0 := by
          rw [List.count_eq_zero]
          simpa using fun e => heq e.symm
        rw [this, Nat.add_zero]

theorem stats_foldl_min (count : Nat) (l : List Nat) :
    (l.foldl stats_step (stats_start count)).stats.min = l.foldl min 1000000 ∧
    (∀ x ∈ l, (l.foldl stats_step (stats_start count)).stats.min ≤ x) ∧
    (l.foldl stats_step (stats_start count)).stats.min_counter =
      l.count (l.foldl stats_step (stats_start count)).stats.min % 2 ^ 64 := by
  induction l using List.reverseRecOn with
  | nil => exact ⟨rfl, by simp, rfl⟩
  | append_singleton l x ih =>
    obtain ⟨h1, h2, h3⟩ := ih
    obtain ⟨a, b, c⟩ := min_step_inv l x _ _ h2 h3
    rw [List.foldl_append, List.foldl_append]
    simp only [List.foldl_cons, List.foldl_nil, (stats_step_min _ _).1, (stats_step_min _ _).2]
    exact ⟨by rw [a, h1], b, c⟩

theorem stats_foldl_max (count : Nat) (l : List Nat) :
    (l.foldl stats_step (stats_start count)).stats.max = l.foldl max 0 ∧
    (∀ x ∈ l, x ≤ (l.foldl stats_step (stats_start count)).stats.max) ∧
    (l.foldl stats_step (stats_start count)).stats.max_counter =
      l.count (l.foldl stats_step (stats_start count)).stats.max % 2 ^ 64 := by
  induction l using List.reverseRecOn with
  | nil => exact ⟨rfl, by simp, rfl⟩
  | append_singleton l x ih =>
    obtain ⟨h1, h2, h3⟩ := ih
    obtain ⟨a, b, c⟩ := max_step_inv l x _ _ h2 h3
    rw [List.foldl_append, List.foldl_append]
    simp only [List.foldl_cons, List.foldl_nil, (stats_step_max _ _).1, (stats_step_max _ _).2]
    exact ⟨by rw [a, h1], b, c⟩
theorem sqrt_u64_run_fst (a min max : Nat) :
    (sqrt_u64_run a min max).1 = sqrt_u64_loop a min max := by
  induction min, max using sqrt_u64_loop.induct a with
  | case1 min max h => rw [sqrt_u64_run, sqrt_u64_loop, if_pos h, if_pos h]
  | case2 min max h he =>
    rw [sqrt_u64_run, sqrt_u64_loop, if_neg h, if_neg h, if_pos he, if_pos he]
  | case3 min max h he hg ih =>
    rw [sqrt_u64_run, sqrt_u64_loop, if_neg h, if_neg h, if_neg he, if_neg he, if_pos hg,
      if_pos hg]
    exact ih
  | case4 min max h he hg ih =>
    rw [sqrt_u64_run, sqrt_u64_loop, if_neg h, if_neg h, if_neg he, if_neg he, if_neg hg,
      if_neg hg]
    exact ih

theorem sq_lt_of_lt {s m : Nat} (h : s < m) (hm : m ≤ 2 ^ 32) : s * s < 2 ^ 64 := by
  have h1 : s ≤ 2 ^ 32 - 1 := by omega
  have h2 : s * s ≤ (2 ^ 32 - 1) * (2 ^ 32 - 1) := Nat.mul_le_mul h1 h1
  have h3 : (2 ^ 32 - 1) * (2 ^ 32 - 1) < 2 ^ 64 := by norm_num
  omega

theorem lt_of_sq_bounds {min max a : Nat} (h1 : min * min ≤ a) (h2 : a < max * max) :
    min < max := by
  by_contra h
  have h3 : max * max ≤ min * min := Nat.mul_le_mul (by omega) (by omega)
  omega

theorem sqrt_u64_loop_spec (a min max : Nat) (h1 : min * min ≤ a) (h2 : a < max * max)
    (h3 : max ≤ 2 ^ 32) :
    sqrt_u64_loop a min max * sqrt_u64_loop a min max ≤ a ∧
    a < (sqrt_u64_loop a min max + 1) * (sqrt_u64_loop a min max + 1) := by
  induction min, max using sqrt_u64_loop.induct a with
  | case1 min max h =>
    rw [sqrt_u64_loop, if_pos h]
    have hlt := lt_of_sq_bounds h1 h2
    have e : max = min + 1 := by omega
    subst e
    exact ⟨h1, h2⟩
  | case2 min max h he =>
    rw [sqrt_u64_loop, if_neg h, if_pos he]
    have hs : min + (max - min) / 2 < max := by omega
    rw [Nat.mod_eq_of_lt (sq_lt_of_lt hs h3)] at he
    refine ⟨by omega, ?_⟩
    rw [← he]
    exact Nat.mul_lt_mul_of_lt_of_le (by omega) (by omega) (by omega)
  | case3 min max h he hg ih =>
    rw [sqrt_u64_loop, if_neg h, if_neg he, if_pos hg]
    have hs : min + (max - min) / 2 < max := by omega
    rw [Nat.mod_eq_of_lt (sq_lt_of_lt hs h3)] at hg
    exact ih h1 hg (by omega)
  | case4 min max h he hg ih =>
    rw [sqrt_u64_loop, if_neg h, if_neg he, if_neg hg]
    have hs : min + (max - min) / 2 < max := by omega
    rw [Nat.mod_eq_of_lt (sq_lt_of_lt hs h3)] at hg
    exact ih (by omega) h2 h3

theorem sqrt_u64_run_log (a min max : Nat) (h3 : max ≤ 2 ^ 32) :
    ∀ s ∈ (sqrt_u64_run a min max).2, min < s ∧ s < max := by
  induction min, max using sqrt_u64_loop.induct a with
  | case1 min max h =>
    rw [sqrt_u64_run, if_pos h]
    intro s hs
    cases hs
  | case2 min max h he =>
    rw [sqrt_u64_run, if_neg h, if_pos he]
    intro s hs
    rw [List.mem_singleton] at hs
    omega
  | case3 min max h he hg ih =>
    rw [sqrt_u64_run, if_neg h, if_neg he, if_pos hg]
    intro s hs
    rcases List.mem_cons.1 hs with hs | hs
    · omega
    · have := ih (by omega) s hs
      omega
  | case4 min max h he hg ih =>
    rw [sqrt_u64_run, if_neg h, if_neg he, if_neg hg]
    intro s hs
    rcases List.mem_cons.1 hs with hs | hs
    · omega
    · have := ih h3 s hs
      omega

theorem sqrt_u64_run_length (a : Nat) (k : Nat) :
    ∀ min max, max - min ≤ 2 ^ k → (sqrt_u64_run a min max).2.length ≤ k := by
  induction k with
  | zero =>
    intro min max h
    rw [sqrt_u64_run, if_pos (by simpa using (by omega : max ≤ 1 + min))]
    exact Nat.le_refl 0
  | succ k ih =>
    intro min max h
    have e : 2 ^ (k + 1) = 2 * 2 ^ k := by rw [pow_succ]; omega
    rw [sqrt_u64_run]
    split_ifs with h0 he hg
    · exact Nat.zero_le _
    · simp
    · have := ih min (min + (max - min) / 2) (by omega)
      simp only [List.length_cons]
      omega
    · have := ih (min + (max - min) / 2) max (by omega)
      simp only [List.length_cons]
      omega

/-! ## The claims -/

/-- C6: for every requested capacity `c`, a successful `khash_init(c)` yields
`bits_num = min(24, ceil(log2(max(1, c))))` and `bck_num = 2 ^ bits_num`, so that there is
at least one bucket, `bck_num >= c` whenever `c <= 2 ^ 24` (stated as
`min c (2 ^ 24) ≤ bck_num`), and both arrays have `bck_num` entries; `khash_init(15)`
gives 16 buckets with 4 bits and `khash_init(555000)` gives 1048576 buckets with 20
bits. -/
theorem khash_init_geometry (c : Nat) :
    ∃ t, khash_init true c = some t ∧
      t.bits_num = min 24 (Nat.clog 2 (max 1 c)) ∧ t.bck_num = 2 ^ t.bits_num ∧
      1 ≤ t.bck_num ∧ min c (2 ^ 24) ≤ t.bck_num ∧
      t.ht.length = t.bck_num ∧ t.ht_count.length = t.bck_num ∧ t.count = 0 ∧
      (khash_init true 15).map (fun s => (s.bck_num, s.bits_num)) = some (16, 4) ∧
      (khash_init true 555000).map (fun s => (s.bck_num, s.bits_num)) = some (1048576, 20) := by
  refine ⟨_, khash_init_eq c, rfl, rfl, Nat.one_le_two_pow, ?_, by simp, by simp, rfl, ?_, ?_⟩
  · show min c (2 ^ 24) ≤ 2 ^ min 24 (Nat.clog 2 (max 1 c))
    by_cases h : Nat.clog 2 (max 1 c) ≤ 24
    · have e : min 24 (Nat.clog 2 (max 1 c)) = Nat.clog 2 (max 1 c) := min_eq_right h
      rw [e]
      exact le_trans (min_le_left _ _)
        (le_trans (le_max_right 1 c) (Nat.le_pow_clog (by norm_num) _))
    · have e : min 24 (Nat.clog 2 (max 1 c)) = 24 := min_eq_left (by omega)
      rw [e]
      exact min_le_right _ _
  · rw [khash_init_eq]
    have : Nat.clog 2 (max 1 15) = 4 := clog_two_eq (k := 3) (by norm_num) (by norm_num)
    rw [this]
    rfl
  · rw [khash_init_eq]
    have : Nat.clog 2 (max 1 555000) = 20 := clog_two_eq (k := 19) (by norm_num) (by norm_num)
    rw [this]
    rfl

/-- C7: for a 32-bit `x` and a 64-bit `y`, `khash_hash_u32(x)` and `khash_hash_u64(y)` produce
the words `[x, 0, 0]`, `[y, 0, 0]` and the scalars `x * GOLDEN64 mod 2 ^ 64`,
`y * GOLDEN64 mod 2 ^ 64`; for 64-bit `lo`, `hi`, `khash_hash_u128(lo, hi)` produces the
words `[lo, hi, 0]` and the scalar
`(lo * GOLDEN64 mod 2 ^ 64) XOR (hi * GOLDEN64 mod 2 ^ 64)`, with
`GOLDEN64 = 0x61C8864680B583EB`. -/
theorem khash_encoders_spec (x y lo hi : Nat) (hx : x < 2 ^ 32) (hy : y < 2 ^ 64)
    (hlo : lo < 2 ^ 64) (hhi : hi < 2 ^ 64) :
    KHASH_GOLDEN_RATIO_64 = 0x61C8864680B583EB ∧
    khash_hash_u32 x = ⟨x, 0, 0, (x * 0x61C8864680B583EB) % 2 ^ 64⟩ ∧
    khash_hash_u64 y = ⟨y, 0, 0, (y * 0x61C8864680B583EB) % 2 ^ 64⟩ ∧
    khash_hash_u128 lo hi = ⟨lo, hi, 0,
      ((lo * 0x61C8864680B583EB) % 2 ^ 64) ^^^ ((hi * 0x61C8864680B583EB) % 2 ^ 64)⟩ ∧
    (khash_hash_u32 x).words = [x, 0, 0] ∧ (khash_hash_u64 y).words = [y, 0, 0] ∧
    (khash_hash_u128 lo hi).words = [lo, hi, 0] := by
  rw [khash_hash_u32_eq, khash_hash_u64_eq, khash_hash_u128_eq, Nat.mod_eq_of_lt hx,
    Nat.mod_eq_of_lt hy, Nat.mod_eq_of_lt hlo, Nat.mod_eq_of_lt hhi]
  exact ⟨rfl, rfl, rfl, rfl, rfl, rfl, rfl⟩

theorem khash_encoders_spec_witness :
    khash_hash_u32 7 = ⟨7, 0, 0, (7 * 0x61C8864680B583EB) % 2 ^ 64⟩ ∧
    khash_hash_u64 77 = ⟨77, 0, 0, (77 * 0x61C8864680B583EB) % 2 ^ 64⟩ ∧
    khash_hash_u128 177 277 = ⟨177, 277, 0,
      ((177 * 0x61C8864680B583EB) % 2 ^ 64) ^^^ ((277 * 0x61C8864680B583EB) % 2 ^ 64)⟩ :=
  let h := khash_encoders_spec 7 77 177 277 (by norm_num) (by norm_num) (by norm_num)
    (by norm_num)
  ⟨h.2.1, h.2.2.1, h.2.2.2.1⟩

/-- C8 (the code departs from the claim): `khash_hash_u160` copies only the first 8 bytes of
its 16-byte array argument, so the high word never reaches the key: the inputs
`(177, 277, 7)` and `(177, 278, 7)` give the same `khash_key_t`, whose words are
`[177, 0, 7]`, and the two keys match; the same holds for every pair of high words. -/
theorem khash_hash_u160_drops_hi :
    (khash_hash_u160 177 277 7).words = [177, 0, 7] ∧
    khash_hash_u160 177 277 7 = khash_hash_u160 177 278 7 ∧
    khash_key_match (khash_hash_u160 177 277 7) (khash_hash_u160 177 278 7) = true ∧
    ∀ lo hi hi2 x : Nat, khash_hash_u160 lo hi x = khash_hash_u160 lo hi2 x := by
  refine ⟨by decide, by decide, by decide, ?_⟩
  intro lo hi hi2 x
  rw [khash_hash_u160_eq, khash_hash_u160_eq]

/-- C1 (the code departs from the claim): `khash_init(1)` yields one bucket and
`bits_num = 0`, so the bucket index of every key is computed with the shift count
`64 - 0 = 64`, the width of the shifted `u64`, which C leaves undefined: on this reachable
table `khash_addentry` of the key `khash_hash_u32(1)`, which the table does not hold
(its only chain is empty), has no defined result, and neither have the lookups. -/
theorem khash_addentry_one_bucket :
    ∃ t, khash_init true 1 = some t ∧ Reachable EncoderKey t ∧
      t.bits_num = 0 ∧ t.bck_num = 1 ∧ t.ht = [[]] ∧
      khash_addentry t (khash_hash_u32 1) 5 true = none ∧
      khash_lookup t (khash_hash_u32 1) = none ∧
      khash_lookup2 t (khash_hash_u32 1) = none :=
  ⟨_, khash_init_one, Reachable.init 1 _ khash_init_one, rfl, rfl, rfl, by decide, by decide,
    by decide⟩

/-- C2: if `khash_lookup(t, k)` finds `k` with the value `v1`, then `khash_addentry(t, k, v2)`
returns -1 whether or not the entry allocation succeeds, the table afterwards is the
table before (same chains, same per-bucket counters, same total count), and
`khash_lookup(t, k)` still returns `v1`. -/
theorem khash_addentry_duplicate (t : khash_t) (k : khash_key_t) (v1 v2 : Nat) (a : Bool)
    (h : khash_lookup t k = some (0, v1)) :
    khash_addentry t k v2 a = some (-1, t) ∧ khash_lookup t k = some (0, v1) := by
  refine ⟨?_, h⟩
  cases a with
  | false => rfl
  | true =>
    unfold khash_lookup at h
    cases h2 : __khash_lookup2 t k with
    | none => rw [h2] at h; simp at h
    | some o =>
      cases o with
      | none => rw [h2] at h; simp at h
      | some item => simp [khash_addentry, khash_add_item, h2]

theorem khash_addentry_duplicate_witness :
    khash_addentry table_one_entry (khash_hash_u32 1) 9 true = some (-1, table_one_entry) ∧
    khash_lookup table_one_entry (khash_hash_u32 1) = some (0, 5) :=
  khash_addentry_duplicate table_one_entry (khash_hash_u32 1) 5 9 true (by decide)

/-- C3 (the code departs from the claim): on the one-bucket table of `khash_init(1)`, which
holds no key, `khash_rementry` of the key `khash_hash_u32(1)` does not return -1: its
bucket index is computed with the undefined shift count 64, and the call has no defined
result. -/
theorem khash_rementry_one_bucket :
    ∃ t, khash_init true 1 = some t ∧ Reachable EncoderKey t ∧
      t.bits_num = 0 ∧ t.ht = [[]] ∧
      khash_rementry t (khash_hash_u32 1) = none :=
  ⟨_, khash_init_one, Reachable.init 1 _ khash_init_one, rfl, rfl, by decide⟩

/-- C5 (the code departs from the claim): on the one-bucket table of `khash_init(1)`,
`khash_flush` succeeds and leaves the empty table as it is, but the following
`khash_addentry` of the key `khash_hash_u32(1)` does not succeed: its bucket index is
computed with the undefined shift count 64, and the call has no defined result. -/
theorem khash_flush_then_add_one_bucket :
    ∃ t, khash_init true 1 = some t ∧ Reachable EncoderKey t ∧
      khash_flush t = some t ∧ khash_size t = 0 ∧ t.bits_num = 0 ∧
      khash_addentry t (khash_hash_u32 1) 5 true = none :=
  ⟨_, khash_init_one, Reachable.init 1 _ khash_init_one, by decide, by decide, rfl, by decide⟩

/-- C9 (the code departs from the claim): for the requested capacities 0 and 1,
`khash_init` yields `bits_num = 0` and one bucket, and `khash_hash_idx_get` shifts the
64-bit product by `64 - bits_num = 64` bits, the full width of its operand: the index is
undefined, so it is not an index below `bck_num`. -/
theorem khash_hash_idx_get_one_bucket :
    (∃ t, khash_init true 1 = some t ∧ t.bits_num = 0 ∧ t.bck_num = 1 ∧
      64 - t.bits_num = 64 ∧ khash_hash_idx_get t (khash_hash_u32 1) = none ∧
      ∀ k, khash_hash_idx_get t k = none) ∧
    (∃ t, khash_init true 0 = some t ∧ t.bits_num = 0 ∧ t.bck_num = 1 ∧
      64 - t.bits_num = 64 ∧ khash_hash_idx_get t (khash_hash_u32 1) = none ∧
      ∀ k, khash_hash_idx_get t k = none) :=
  ⟨⟨_, khash_init_one, rfl, rfl, rfl, by decide, fun k => hash_long_zero k.key⟩,
   ⟨_, khash_init_zero, rfl, rfl, rfl, by decide, fun k => hash_long_zero k.key⟩⟩

/-- C4 (counterexample to the claim as stated): the counters are 32-bit.  After
`khash_init(16)` and `2 ^ 32` successful calls `khash_addentry` with the distinct keys
`khash_hash_u64(0)`, ..., `khash_hash_u64(2 ^ 32 - 1)`, the reachable table holds `2 ^ 32`
entries while its total count has wrapped to 0, so `khash_size` is 0 and not the number
of live keys. -/
theorem khash_count_wraps :
    ∃ t0 t, khash_init true 16 = some t0 ∧ khash_fill (2 ^ 32) t0 = some t ∧
      Reachable EncoderKey t ∧ t.ht.flatten.length = 2 ^ 32 ∧ t.count = 0 ∧
      khash_size t = 0 ∧ khash_size t ≠ (t.ht.flatten.length : Int) := by
  have h0 : Reachable EncoderKey _ := Reachable.init 16 _ khash_init_sixteen
  obtain ⟨t, hfill, hreach, _, hlive, _⟩ :=
    fill_spec EncoderKey (fun x => Or.inr (Or.inl ⟨x, rfl⟩)) _ h0 (by decide) (by decide)
      (2 ^ 32) (by norm_num)
  have hcount : t.count = 0 := by rw [hreach.inv.total, hlive]; rfl
  have hlen : t.ht.flatten.length = 2 ^ 32 := by rw [← live_eq_length, hlive]
  have hsize : khash_size t = 0 := khash_size_of_count hcount (by norm_num)
  refine ⟨_, t, khash_init_sixteen, hfill, hreach, hlen, hcount, hsize, ?_⟩
  rw [hsize, hlen]
  norm_num

/-- C4 (amended): in every state reachable from `khash_init` by successful or failing add,
remove and flush calls that holds fewer than `2 ^ 31` entries, each per-bucket counter
`ht_count[i]` equals the length of chain `i`, and `khash_size(t)`, the total count, equals
the number of live entries and the sum of all per-bucket counters. -/
theorem khash_counters_invariant (P : khash_key_t → Prop) (t : khash_t)
    (hreach : Reachable P t) (hsmall : t.ht.flatten.length < 2 ^ 31) :
    (∀ (b : Nat) (chain : List khash_item_t), t.ht[b]? = some chain →
      t.ht_count[b]? = some chain.length) ∧
    t.ht_count.length = t.ht.length ∧
    t.count = t.ht.flatten.length ∧
    khash_size t = t.ht.flatten.length ∧
    t.ht_count.sum = t.ht.flatten.length := by
  have hinv := hreach.inv
  have hl := live_eq_length t
  obtain ⟨h1, h2, h3, h4, _⟩ := counters_exact hinv (by rw [hl]; exact hsmall)
  exact ⟨h1, by rw [hinv.len_cnt, hinv.len_ht], by rw [h2, hl], by rw [h3, hl], by rw [h4, hl]⟩

theorem khash_counters_invariant_witness :
    table_one_entry.count = table_one_entry.ht.flatten.length ∧
    khash_size table_one_entry = table_one_entry.ht.flatten.length ∧
    table_one_entry.ht_count.sum = table_one_entry.ht.flatten.length :=
  (khash_counters_invariant (fun _ => True) table_one_entry
    (table_one_entry_reachable _ trivial) (by decide)).2.2

/-- C10: on every reachable table and for every visitor that always returns 0,
`khash_foreach` calls the visitor on exactly the live entries (the concatenation of the
chains, `N` entries in all), once each, threading the user data through the calls; no two
of the entries visited are the same entry or carry the same key, and `N` is the value of
`khash_size` when it is below `2 ^ 31`. -/
theorem khash_foreach_visits_all {σ : Type} (P : khash_key_t → Prop) (t : khash_t)
    (hreach : Reachable P t) (func : khash_key_t → Nat → σ → Int × σ)
    (h0 : ∀ k v d, (func k v d).1 = 0) (data : σ) :
    khash_foreach t func data =
      some (t.ht.flatten.foldl (fun d item => (func item.hash item.value d).2) data,
        t.ht.flatten) ∧
    (t.ht.flatten.map (fun item => item.hash)).Nodup ∧ t.ht.flatten.Nodup ∧
    (t.ht.flatten.length < 2 ^ 31 → khash_size t = t.ht.flatten.length) := by
  have hinv := hreach.inv
  refine ⟨?_, hinv.nodup_hash, hinv.nodup_hash.of_map _, ?_⟩
  · rw [foreach_spec func hinv, visit_all func h0]
  · intro h
    have := counters_exact hinv (by rw [live_eq_length]; exact h)
    rw [this.2.2.1, live_eq_length]

theorem khash_foreach_visits_all_witness :
    khash_foreach table_one_entry (fun _ _ d => ((0 : Int), d + 1)) 0 =
      some (1, [⟨khash_hash_u32 1, 5⟩]) :=
  (khash_foreach_visits_all (fun _ => True) table_one_entry
    (table_one_entry_reachable _ trivial) (fun _ _ d => ((0 : Int), d + 1))
    (fun _ _ _ => rfl) 0).1

/-- C11: on every reachable table and for every visitor, `khash_foreach` calls the visitor
on the entries in increasing bucket index and, within a bucket, in chain order, and stops
at the first call that returns non-zero: the calls made are those of `visit_until_stop` on
the concatenation of the chains, a prefix of that concatenation.  When the return code of
the visitor does not depend on the user data, the entries visited are those before the
first entry on which the visitor returns non-zero, followed by that entry; a visitor that
always stops is called on the first entry only, and a visitor that never stops is called
on all of them. -/
theorem khash_foreach_order_stop {σ : Type} (P : khash_key_t → Prop) (t : khash_t)
    (hreach : Reachable P t) (func : khash_key_t → Nat → σ → Int × σ) (data : σ) :
    khash_foreach t func data = some (visit_until_stop func t.ht.flatten data) ∧
    (visit_until_stop func t.ht.flatten data).2 <+: t.ht.flatten ∧
    ((∀ k v d1 d2, (func k v d1).1 = (func k v d2).1) →
      (visit_until_stop func t.ht.flatten data).2 =
        t.ht.flatten.takeWhile (fun item => decide ((func item.hash item.value data).1 = 0)) ++
        (t.ht.flatten.dropWhile
          (fun item => decide ((func item.hash item.value data).1 = 0))).take 1) ∧
    ((∀ k v d, (func k v d).1 ≠ 0) →
      (visit_until_stop func t.ht.flatten data).2 = t.ht.flatten.take 1) ∧
    ((∀ k v d, (func k v d).1 = 0) →
      (visit_until_stop func t.ht.flatten data).2 = t.ht.flatten) := by
  refine ⟨foreach_spec func hreach.inv data, visit_prefix func _ data,
    fun h => visit_stateless func h data _ data, ?_, ?_⟩
  · intro h
    cases t.ht.flatten with
    | nil => rfl
    | cons item l => simp [visit_until_stop, h]
  · intro h
    rw [visit_all func h]

theorem khash_foreach_order_stop_witness :
    khash_foreach table_one_entry (fun _ _ d => ((1 : Int), d + 1)) 0 =
      some (visit_until_stop (fun _ _ d => ((1 : Int), d + 1))
        table_one_entry.ht.flatten 0) :=
  (khash_foreach_order_stop (fun _ => True) table_one_entry
    (table_one_entry_reachable _ trivial) (fun _ _ d => ((1 : Int), d + 1)) 0).1

/-- C12: in every state reachable from `khash_init` by add, remove and flush, the keys added
being produced by the encoders, no two live entries have the same 192-bit key storage,
and every live entry sits in the chain whose index is `khash_hash_idx_get` of its own
key. -/
theorem khash_keys_distinct (t : khash_t) (hreach : Reachable EncoderKey t) :
    (t.ht.flatten.map (fun item => item.hash.words)).Nodup ∧
    (∀ (b : Nat) (chain : List khash_item_t), t.ht[b]? = some chain →
      ∀ it ∈ chain, khash_hash_idx_get t it.hash = some b) ∧
    (∀ it ∈ t.ht.flatten, EncoderKey it.hash) :=
  ⟨nodup_words hreach.inv (fun it hit => (hreach.items it hit).fold), hreach.inv.home,
    hreach.items⟩

theorem khash_keys_distinct_witness :
    (table_one_entry.ht.flatten.map (fun item => item.hash.words)).Nodup :=
  (khash_keys_distinct table_one_entry
    (table_one_entry_reachable EncoderKey (Or.inl ⟨1, rfl⟩))).1

/-- C13 (the code departs from the claim): the minimum starts from the constant 1000000 and
not from a counter, so on a table of two buckets whose counters are 2000000 and 2000001
`khash_stats_get` reports the minimum 1000000, which no bucket has, with `min_counter`
0; the maximum, 2000001 with `max_counter` 1, is right. -/
theorem khash_stats_min_sentinel (bits : Nat) (ht : List (List khash_item_t))
    (s0 : khash_stats_t) :
    ∃ s oob, khash_stats_get ⟨4000001, 2, bits, [2000000, 2000001], ht⟩ s0 = some (0, s, oob) ∧
      s.min = 1000000 ∧ s.min_counter = 0 ∧ s.max = 2000001 ∧ s.max_counter = 1 := by
  have ev : (khash_stats_get ⟨4000001, 2, 0, [2000000, 2000001], []⟩ stats_zero).map
      (fun r => (r.1, r.2.1.min, r.2.1.min_counter, r.2.1.max, r.2.1.max_counter)) =
      some (0, 1000000, 0, 2000001, 1) := by decide
  rw [stats_get_congr ⟨4000001, 2, bits, [2000000, 2000001], ht⟩
    ⟨4000001, 2, 0, [2000000, 2000001], []⟩ s0 stats_zero
    (by show (2 : Nat) ≠ 0; norm_num) rfl rfl rfl] at ev
  obtain ⟨⟨r, s, oob⟩, hs, hr⟩ := Option.map_eq_some'.1 ev
  simp only [Prod.mk.injEq] at hr
  exact ⟨s, oob, by rw [hs, hr.1], hr.2.1, hr.2.2.1, hr.2.2.2.1, hr.2.2.2.2⟩

set_option maxRecDepth 100000 in
/-- C14 (the code departs from the claim): the mode loop runs over the occupancies below
`min(25, max)` and so never looks at the maximum itself.  On the empty table of
`khash_init(16)` all 16 buckets have occupancy 0 (`statistical_mode[0]` is 16) but
`stat_mode_counter` is 0; on a table whose 16 buckets all hold one entry
(`statistical_mode[1]` is 16) `khash_stats_get` reports the mode 0 with
`stat_mode_counter` 0. -/
theorem khash_stats_mode_misses_max :
    (∃ t s, khash_init true 16 = some t ∧ khash_stats_get t stats_zero = some (0, s, []) ∧
      s.max = 0 ∧ s.statistical_mode.getD 0 0 = 16 ∧ s.stat_mode = 0 ∧
      s.stat_mode_counter = 0) ∧
    (∀ (bits : Nat) (ht : List (List khash_item_t)), ∃ s,
      khash_stats_get ⟨16, 16, bits, List.replicate 16 1, ht⟩ stats_zero = some (0, s, []) ∧
      s.max = 1 ∧ s.statistical_mode.getD 1 0 = 16 ∧ s.stat_mode = 0 ∧
      s.stat_mode_counter = 0) := by
  have ev0 : (khash_stats_get ⟨0, 16, 4, List.replicate 16 0, List.replicate 16 []⟩
      stats_zero).map (fun r => (r.1, r.2.2, r.2.1.max, r.2.1.statistical_mode.getD 0 0,
        r.2.1.stat_mode, r.2.1.stat_mode_counter)) = some (0, [], 0, 16, 0, 0) := by decide
  have ev1 : (khash_stats_get ⟨16, 16, 0, List.replicate 16 1, []⟩
      stats_zero).map (fun r => (r.1, r.2.2, r.2.1.max, r.2.1.statistical_mode.getD 1 0,
        r.2.1.stat_mode, r.2.1.stat_mode_counter)) = some (0, [], 1, 16, 0, 0) := by decide
  constructor
  · obtain ⟨⟨r, s, oob⟩, hs, hr⟩ := Option.map_eq_some'.1 ev0
    simp only [Prod.mk.injEq] at hr
    exact ⟨_, s, khash_init_sixteen, by rw [hs, hr.1, hr.2.1], hr.2.2.1, hr.2.2.2.1,
      hr.2.2.2.2.1, hr.2.2.2.2.2⟩
  · intro bits ht
    rw [stats_get_congr ⟨16, 16, bits, List.replicate 16 1, ht⟩
      ⟨16, 16, 0, List.replicate 16 1, []⟩ stats_zero stats_zero
      (by show (16 : Nat) ≠ 0; norm_num) rfl rfl rfl] at ev1
    obtain ⟨⟨r, s, oob⟩, hs, hr⟩ := Option.map_eq_some'.1 ev1
    simp only [Prod.mk.injEq] at hr
    exact ⟨s, by rw [hs, hr.1, hr.2.1], hr.2.2.1, hr.2.2.2.1, hr.2.2.2.2.1, hr.2.2.2.2.2⟩

set_option maxRecDepth 100000 in
/-- C15 (the code departs from the claim): `stats->statistical_mode[tmp]++` is executed for
every counter value, with no test against `MAX_STATISTICAL_MODE`.  After `khash_init(2)`
and the 49 successful calls `khash_addentry` of `khash_hash_u64(0)`, ...,
`khash_hash_u64(48)` the two buckets hold 24 and 25 entries, and `khash_stats_get`
accesses `statistical_mode[25]`, outside the 25 entries of the array. -/
theorem khash_stats_mode_out_of_bounds :
    ∃ t0 t, khash_init true 2 = some t0 ∧ khash_fill 49 t0 = some t ∧
      Reachable EncoderKey t ∧ t.ht_count = [24, 25] ∧
      ∃ s, khash_stats_get t stats_zero = some (0, s, [25]) := by
  have h0 : Reachable EncoderKey _ := Reachable.init 2 _ khash_init_two
  obtain ⟨t, hfill, hreach, _, _, _⟩ :=
    fill_spec EncoderKey (fun x => Or.inr (Or.inl ⟨x, rfl⟩)) _ h0 (by decide) (by decide)
      49 (by norm_num)
  have ev : (khash_fill 49 ⟨0, 2, 1, [0, 0], [[], []]⟩).bind (fun t =>
      (khash_stats_get t stats_zero).map (fun r => (t.ht_count, r.1, r.2.2))) =
      some ([24, 25], 0, [25]) := by decide
  rw [hfill, Option.some_bind] at ev
  cases hs : khash_stats_get t stats_zero with
  | none => rw [hs] at ev; simp at ev
  | some r =>
    rw [hs] at ev
    simp only [Option.map_some', Option.some.injEq, Prod.mk.injEq] at ev
    obtain ⟨r1, s, oob⟩ := r
    simp only at ev
    refine ⟨_, t, khash_init_two, hfill, hreach, ev.1, s, ?_⟩
    rw [hs, ev.2.1, ev.2.2]

/-- C16: on every reachable table for which the accumulation of the mean does not overflow
64 bits, `khash_stats_get` returns 0 and the mean it reports is the mean occupancy
rounded down, `floor(sum(ht_count) / bck_num)`, that is
`floor(floor(1000 * sum(ht_count) / bck_num) / 1000)`; when the table holds fewer than
`2 ^ 31` entries this is `floor(count / bck_num)`, `count` being also the count
reported. -/
theorem khash_stats_mean (P : khash_key_t → Prop) (t : khash_t) (s0 : khash_stats_t)
    (hreach : Reachable P t) (hno : 1000 * t.ht_count.sum < 2 ^ 64) :
    ∃ s oob, khash_stats_get t s0 = some (0, s, oob) ∧
      s.mean = t.ht_count.sum / t.bck_num ∧
      1000 * t.ht_count.sum / t.bck_num / 1000 = t.ht_count.sum / t.bck_num ∧
      (t.ht.flatten.length < 2 ^ 31 →
        s.mean = t.count / t.bck_num ∧ s.count = t.count ∧ t.count = t.ht_count.sum) := by
  have hinv := hreach.inv
  have hb : 1 ≤ t.bck_num := by rw [hinv.bck]; exact Nat.one_le_two_pow
  have hdiv : 1000 * t.ht_count.sum / t.bck_num / 1000 = t.ht_count.sum / t.bck_num := by
    rw [Nat.div_div_eq_div_mul, Nat.mul_comm t.bck_num 1000,
      Nat.mul_div_mul_left _ _ (by norm_num : 0 < 1000)]
  obtain ⟨s, oob, hs, hmean, hcount⟩ := stats_get_mean s0 hb hinv.len_cnt
  rw [Nat.mod_eq_of_lt hno, hdiv] at hmean
  refine ⟨s, oob, hs, hmean, hdiv, ?_⟩
  intro hsmall
  obtain ⟨_, h2, _, h4, _⟩ := counters_exact hinv (by rw [live_eq_length]; exact hsmall)
  have hc : t.count = t.ht_count.sum := by rw [h2, h4]
  refine ⟨by rw [hmean, hc], ?_, hc⟩
  rw [hcount]
  exact Nat.mod_eq_of_lt (by rw [h2, live_eq_length]; omega)

theorem khash_stats_mean_witness :
    ∃ s oob, khash_stats_get table_one_entry stats_zero = some (0, s, oob) ∧ s.mean = 0 := by
  obtain ⟨s, oob, hs, hmean, _⟩ := khash_stats_mean (fun _ => True) table_one_entry stats_zero
    (table_one_entry_reachable _ trivial) (by decide)
  exact ⟨s, oob, hs, by rw [hmean]; rfl⟩

/-- C17 (counterexample to the claim as stated): `khash_init(1)` yields a bucket array of
length 1, below 16. -/
theorem khash_init_below_sixteen :
    ∃ t, khash_init true 1 = some t ∧ t.ht.length = 1 ∧ t.bck_num = 1 ∧ ¬ 16 ≤ t.ht.length :=
  ⟨_, khash_init_one, rfl, rfl, by decide⟩

/-- C17 (amended): for every requested capacity `c`, the table produced by `khash_init(c)`
has a bucket array whose length `N` is a power of two with `1 <= N <= 2 ^ 24`; `N` is
at least 16 exactly when `c` is at least 9. -/
theorem khash_init_bucket_range (c : Nat) :
    ∃ t k, khash_init true c = some t ∧ k ≤ 24 ∧ t.ht.length = 2 ^ k ∧
      t.bck_num = t.ht.length ∧ 1 ≤ t.ht.length ∧ t.ht.length ≤ 2 ^ 24 ∧
      (16 ≤ t.ht.length ↔ 9 ≤ c) := by
  have hk : min 24 (Nat.clog 2 (max 1 c)) ≤ 24 := min_le_left _ _
  refine ⟨_, min 24 (Nat.clog 2 (max 1 c)), khash_init_eq c, hk, by simp, by simp, ?_, ?_, ?_⟩
  · simp only [List.length_replicate]
    exact Nat.one_le_two_pow
  · simp only [List.length_replicate]
    exact Nat.pow_le_pow_right (by norm_num) hk
  · simp only [List.length_replicate]
    have h16 : (16 : Nat) = 2 ^ 4 := by norm_num
    rw [h16, Nat.pow_le_pow_iff_right (by norm_num : 1 < 2)]
    have key : 4 ≤ Nat.clog 2 (max 1 c) ↔ 9 ≤ c := by
      have := Nat.pow_lt_iff_lt_clog (by norm_num : 1 < 2) (x := max 1 c) (y := 3)
      have h8 : (2 : Nat) ^ 3 = 8 := by norm_num
      rw [h8] at this
      constructor
      · intro h
        have := this.2 (by omega)
        rcases Nat.le_total 1 c with h1 | h1
        · rw [max_eq_right h1] at this; omega
        · rw [max_eq_left h1] at this; omega
      · intro h
        have := this.1 (lt_of_lt_of_le (by omega : 8 < c) (le_max_right 1 c))
        omega
    constructor
    · intro h
      exact key.1 (by omega)
    · intro h
      have := key.2 h
      omega

/-- C19: on every reachable table and for two keys `k`, `k2` with different 192-bit storage,
whatever `khash_addentry(t, k, v)` or `khash_rementry(t, k)` returns, `khash_lookup(t, k2)`
gives the same result, found or not and the value, after the call as before it. -/
theorem khash_lookup_frame (P : khash_key_t → Prop) (t : khash_t) (hreach : Reachable P t)
    (k k2 : khash_key_t) (hne : k.words ≠ k2.words) :
    (∀ (v : Nat) (a : Bool) (r : Int) (t1 : khash_t),
      khash_addentry t k v a = some (r, t1) → khash_lookup t1 k2 = khash_lookup t k2) ∧
    (∀ (r : Int) (v : Nat) (t1 : khash_t),
      khash_rementry t k = some (r, v, t1) → khash_lookup t1 k2 = khash_lookup t k2) := by
  have hinv := hreach.inv
  constructor
  · intro v a r t1 h
    unfold khash_addentry at h
    cases a with
    | false => simp at h; rw [← h.2]
    | true =>
      simp only [if_true] at h
      rcases add_item_cases hinv ⟨k, v⟩ with
        ⟨_, hn⟩ | ⟨i, chain, hi, hc, ⟨old, hf, he⟩ | ⟨hf, he⟩⟩
      · rw [hn] at h; simp at h
      · rw [he] at h; simp at h; rw [← h.2]
      · rw [he] at h; simp at h; rw [← h.2]
        exact lookup_of_set k2
          (show (linked t i ⟨k, v⟩ chain).bits_num = t.bits_num from rfl)
          (show (linked t i ⟨k, v⟩ chain).ht = t.ht.set i (⟨k, v⟩ :: chain) from rfl) hc
          (by simp [List.find?_cons, words_ne_match hne])
  · intro r v t1 h
    rcases rementry_cases hinv k with
      ⟨_, hn⟩ | ⟨i, chain, hi, hc, ⟨hf, he⟩ | ⟨item, hf, he⟩⟩
    · rw [hn] at h; simp at h
    · rw [he] at h; simp at h; rw [← h.2.2]
    · rw [he] at h; simp at h; rw [← h.2.2]
      have hm := List.find?_some hf
      simp only [khash_key_match, decide_eq_true_eq] at hm
      exact lookup_of_set k2
        (show (unlinked t i item chain).bits_num = t.bits_num from rfl)
        (show (unlinked t i item chain).ht = t.ht.set i (chain.erase item) from rfl) hc
        (find_erase_of_not_match _ chain item (words_ne_match (by rw [hm]; exact hne)))

theorem khash_lookup_frame_witness :
    (khash_addentry table_one_entry (khash_hash_u32 2) 9 true).bind
      (fun r => khash_lookup r.2 (khash_hash_u32 1)) =
      khash_lookup table_one_entry (khash_hash_u32 1) := by
  cases h : khash_addentry table_one_entry (khash_hash_u32 2) 9 true with
  | none => exact absurd h (by decide)
  | some r =>
    exact (khash_lookup_frame (fun _ => True) table_one_entry
      (table_one_entry_reachable _ trivial) (khash_hash_u32 2) (khash_hash_u32 1)
      (by decide)).1 9 true r.1 r.2 h

/-- C20: keys of different widths share one key space: for every 32-bit `x`,
`khash_hash_u32(x)`, `khash_hash_u64(x)` and `khash_hash_u128(x, 0)` are the same key;
`khash_64(0) = 0`, so the scalar of every encoder output is the XOR of `khash_64` over its
three stored words, and two encoder outputs with equal 192-bit storage have equal scalars,
are equal keys and get the same bucket index on every table. -/
theorem khash_key_space (x : Nat) (hx : x < 2 ^ 32) :
    khash_hash_u32 x = khash_hash_u64 x ∧ khash_hash_u64 x = khash_hash_u128 x 0 ∧
    khash_64 0 = 0 ∧
    (∀ k, EncoderKey k → k.key = khash_64 k.w0 ^^^ khash_64 k.w1 ^^^ khash_64 k.w2) ∧
    (∀ k1 k2, EncoderKey k1 → EncoderKey k2 → k1.words = k2.words →
      k1.key = k2.key ∧ k1 = k2 ∧
      ∀ t : khash_t, khash_hash_idx_get t k1 = khash_hash_idx_get t k2) := by
  have e32 : x % 2 ^ 32 = x := Nat.mod_eq_of_lt hx
  have e64 : x % 2 ^ 64 = x := Nat.mod_eq_of_lt (lt_trans hx (by norm_num))
  refine ⟨?_, ?_, khash_64_zero, fun k hk => hk.fold, ?_⟩
  · rw [khash_hash_u32_eq, khash_hash_u64_eq, e32, e64]
  · rw [khash_hash_u64_eq, khash_hash_u128_eq, e64]
    simp [khash_64_zero]
  · intro k1 k2 h1 h2 hw
    have hkey : k1.key = k2.key := by rw [h1.fold, h2.fold, key_fold_of_words hw]
    refine ⟨hkey, ?_, fun t => by simp only [khash_hash_idx_get, hkey]⟩
    simp only [khash_key_t.words, List.cons.injEq, and_true] at hw
    cases k1
    cases k2
    simp only at hw hkey
    simp only [khash_key_t.mk.injEq]
    exact ⟨hw.1, hw.2.1, hw.2.2, hkey⟩

theorem khash_key_space_witness :
    khash_hash_u32 7 = khash_hash_u64 7 ∧ khash_hash_u64 7 = khash_hash_u128 7 0 :=
  let h := khash_key_space 7 (by norm_num)
  ⟨h.1, h.2.1⟩

/-- C21: for every 64-bit `a`, `sqrt_u64(a)` returns: the bisection is a total function and
it computes `sq = sqt * sqt` at most 32 times; every product `sqt * sqt` it forms is below
`2 ^ 64`, so `sq` never wraps; and the value `r` returned is the integer square root of
`a`, that is `r * r ≤ a < (r + 1) * (r + 1)`. -/
theorem khash_sqrt_u64_floor (a : Nat) (h : a < 2 ^ 64) :
    (sqrt_u64_run a 0 (2 ^ 32)).1 = sqrt_u64 a ∧
    (sqrt_u64_run a 0 (2 ^ 32)).2.length ≤ 32 ∧
    (∀ s ∈ (sqrt_u64_run a 0 (2 ^ 32)).2, s * s < 2 ^ 64) ∧
    sqrt_u64 a * sqrt_u64 a ≤ a ∧
    a < (sqrt_u64 a + 1) * (sqrt_u64 a + 1) ∧
    sqrt_u64 a = Nat.sqrt a := by
  have hmax : a < 2 ^ 32 * 2 ^ 32 := by
    have e : (2 : Nat) ^ 32 * 2 ^ 32 = 2 ^ 64 := by norm_num
    omega
  have hspec := sqrt_u64_loop_spec a 0 (2 ^ 32) (Nat.zero_le _) hmax (Nat.le_refl _)
  refine ⟨sqrt_u64_run_fst a 0 (2 ^ 32), ?_, ?_, hspec.1, hspec.2, Nat.eq_sqrt.2 hspec⟩
  · exact sqrt_u64_run_length a 32 0 (2 ^ 32) (by omega)
  · intro s hs
    exact sq_lt_of_lt (sqrt_u64_run_log a 0 (2 ^ 32) (Nat.le_refl _) s hs).2 (Nat.le_refl _)

theorem khash_sqrt_u64_floor_witness :
    (18446744073709551615 : Nat) < 2 ^ 64 ∧
    sqrt_u64 18446744073709551615 = 4294967295 := by
  refine ⟨by norm_num, ?_⟩
  rw [(khash_sqrt_u64_floor 18446744073709551615 (by norm_num)).2.2.2.2.2]
  exact (Nat.eq_sqrt.2 ⟨by norm_num, by norm_num⟩).symm

end Khash
